import Mathlib

/-!
A verification development for the BotMon SDK managed-rules and
content-optimization pipeline.  Pure functions of the TypeScript source are
embedded as executable Lean definitions (strings are handled as `String` or
`List Char`; JavaScript regular-expression searches are embedded as explicit
deterministic scanners with the same match semantics; JavaScript `Map` /
object-key semantics are embedded as fold-built lookup functions and ordered
association lists).  Asynchronous, effectful code (the pipeline orchestrator
and the remote-config fetcher) is embedded by explicit effect passing: thrown
exceptions become `Except` values and edge-cache writes become explicit
emitted-write lists.
-/

namespace Botmon

/-! ## Basic data model (src/types/managed-rules.types.ts, src/types/geo.types.ts) -/

/-- `ManagedFileMode` from src/types/managed-rules.types.ts. -/
inductive ManagedFileMode
  | append
  | merge
  | replace
  | disabled
deriving DecidableEq

/-- `PageType` from src/types/geo.types.ts. -/
inductive PageType
  | product
  | article
  | docs
  | faq
  | howTo
  | pricing
  | comparison
  | generic
deriving DecidableEq

/-- `SchemaType` from src/types/geo.types.ts. -/
inductive SchemaType
  | Product
  | Article
  | TechArticle
  | FAQPage
  | HowTo
  | WebPage
  | Offer
deriving DecidableEq

/-- `confidence` field of `PageTypeResult`. -/
inductive Confidence
  | high
  | medium
  | low
deriving DecidableEq

/-- `source` field of `PageTypeResult` (serialized in the code as
"url-pattern" | "meta-tag" | "content-heuristic" | "geo-rule" | "default";
the spec calls the "geo-rule" tier simply the "rule" tier). -/
inductive DetectSource
  | urlPattern
  | metaTag
  | contentHeuristic
  | geoRule
  | dflt
deriving DecidableEq

/-- `PageTypeResult` from src/types/geo.types.ts. -/
structure PageTypeResult where
  pageType : PageType
  confidence : Confidence
  source : DetectSource
deriving DecidableEq

/-- `GeoPageRule` from src/types/geo.types.ts.  Optional fields use `Option`;
`customJsonLd` is modelled by its presence only (its JSON payload never
influences the properties proved here). -/
structure GeoPageRule where
  urlPattern : String
  pageType : Option PageType := none
  schemaTypes : Option (List SchemaType) := none
  summary : Option String := none
  customJsonLd : Option Unit := none
  disabled : Option Bool := none
deriving DecidableEq

/-! ## GlobMatcher (globToRegex, src page-type-detector)

`globToRegex` escapes regex metacharacters (except `*` and `/`), turns `**`
into `.*`, a single `*` into `[^/]+`, and anchors the result with `^...$`.
The produced regex is embedded here as a token list plus a backtracking
matcher with the same acceptance semantics:
  * a literal character matches itself (the escape step makes every
    non-`*` character literal; the one character the source forgets to
    escape is `?`, so theorems quantifying over patterns assume the pattern
    contains no `?`),
  * `[^/]+` (from `*`) matches one or more characters other than `/`,
  * `.*` (from `**`) matches any sequence of characters none of which is a
    JavaScript line terminator (`.` without the `s` flag matches every
    character except LF, CR, U+2028 and U+2029),
  * `^`/`$` anchoring is the `[] ↔ []` base case of the matcher. -/

/-- Tokenized form of a glob pattern: the `**`-pair replacement runs first
(left to right), then single `*`, mirroring the `.replace` chain of
`globToRegex`. -/
inductive GlobTok
  | star
  | globstar
  | lit (c : Char)
deriving DecidableEq

/-- Tokenize a glob pattern (the `.replace` chain of `globToRegex`):
a `**` pair (scanned left to right) becomes `.*`, a remaining `*` becomes
`[^/]+`, every other character is literal. -/
def globTokens : List Char → List GlobTok
  | [] => []
  | [c] => if c = '*' then [.star] else [.lit c]
  | c :: d :: rest =>
    if c = '*' then
      if d = '*' then .globstar :: globTokens rest
      else .star :: globTokens (d :: rest)
    else .lit c :: globTokens (d :: rest)

/-- A JavaScript line terminator: `.` in a regex without the `s` flag
matches every character except LF, CR, U+2028 and U+2029. -/
def lineTerm (c : Char) : Bool :=
  c = '\n' || c = '\r' || c = '\u2028' || c = '\u2029'

/-- Backtracking matcher for the regex produced by `globToRegex`
(anchored at both ends). -/
def globMatchAux : List GlobTok → List Char → Bool
  | [], [] => true
  | [], _ :: _ => false
  | .lit _ :: _, [] => false
  | .lit c :: ts, x :: xs => c == x && globMatchAux ts xs
  | .star :: _, [] => false
  | .star :: ts, x :: xs =>
      !(x == '/') && (globMatchAux ts xs || globMatchAux (.star :: ts) xs)
  | .globstar :: ts, [] => globMatchAux ts []
  | .globstar :: ts, x :: xs =>
      globMatchAux ts (x :: xs) || (!lineTerm x && globMatchAux (.globstar :: ts) xs)
termination_by ts cs => (cs.length, ts.length)

/-- `globToRegex(pattern).test(path)`: compile the pattern and run the
anchored matcher on the whole path. -/
def globMatch (pattern path : String) : Bool :=
  globMatchAux (globTokens pattern.toList) path.toList

/-- Modelled from the spec: the declarative glob semantics of §4.1 — a
token list *describes the entire path*: literals match themselves, `*`
consumes exactly one nonempty `/`-free segment piece, `**` consumes any
(possibly empty) remainder.  The remainder clause carries the one bound
the compiled `.*` imposes: `.` cannot match a JavaScript line terminator
(LF, CR, U+2028, U+2029), so the remainder must be free of them. -/
inductive GlobSpec : List GlobTok → List Char → Prop
  | nil : GlobSpec [] []
  | lit {c ts xs} : GlobSpec ts xs → GlobSpec (.lit c :: ts) (c :: xs)
  | star {ts seg xs} : seg ≠ [] → (∀ ch ∈ seg, ch ≠ '/') →
      GlobSpec ts xs → GlobSpec (.star :: ts) (seg ++ xs)
  | globstar {ts seg xs} : (∀ ch ∈ seg, lineTerm ch = false) →
      GlobSpec ts xs → GlobSpec (.globstar :: ts) (seg ++ xs)

/-- Step equation: literal token against a cons. -/
theorem globMatchAux_lit_cons (c : Char) (ts : List GlobTok) (x : Char) (xs : List Char) :
    globMatchAux (.lit c :: ts) (x :: xs) = (c == x && globMatchAux ts xs) := by
  simp only [globMatchAux]

/-- Step equation: `[^/]+` token against a cons. -/
theorem globMatchAux_star_cons (ts : List GlobTok) (x : Char) (xs : List Char) :
    globMatchAux (.star :: ts) (x :: xs)
      = (!(x == '/') && (globMatchAux ts xs || globMatchAux (.star :: ts) xs)) := by
  simp only [globMatchAux]

/-- Step equation: `.*` token against the empty path. -/
theorem globMatchAux_globstar_nil (ts : List GlobTok) :
    globMatchAux (.globstar :: ts) [] = globMatchAux ts [] := by
  simp only [globMatchAux]

/-- Step equation: `.*` token against a cons. -/
theorem globMatchAux_globstar_cons (ts : List GlobTok) (x : Char) (xs : List Char) :
    globMatchAux (.globstar :: ts) (x :: xs)
      = (globMatchAux ts (x :: xs) || (!lineTerm x && globMatchAux (.globstar :: ts) xs)) := by
  simp only [globMatchAux]

/-- A nonempty `/`-free segment piece satisfies the `[^/]+` token. -/
theorem globMatchAux_star_of (ts : List GlobTok) (seg xs : List Char)
    (h0 : seg ≠ []) (h1 : ∀ c ∈ seg, c ≠ '/') (h2 : globMatchAux ts xs = true) :
    globMatchAux (.star :: ts) (seg ++ xs) = true := by
  induction seg with
  | nil => exact absurd rfl h0
  | cons a seg ih =>
    have ha : a ≠ '/' := h1 a (by simp)
    cases seg with
    | nil =>
      rw [List.cons_append, List.nil_append, globMatchAux_star_cons]
      simp [ha, h2]
    | cons b seg' =>
      have hrec := ih (by simp) (fun c hc => h1 c (by simp [hc]))
      rw [List.cons_append, globMatchAux_star_cons]
      have ha' : (a == '/') = false := by simpa using ha
      simp only [ha', Bool.not_false, Bool.true_and, Bool.or_eq_true]
      exact Or.inr hrec

/-- A piece free of line terminators satisfies the `.*` token. -/
theorem globMatchAux_globstar_of (ts : List GlobTok) (seg xs : List Char)
    (h1 : ∀ c ∈ seg, lineTerm c = false) (h2 : globMatchAux ts xs = true) :
    globMatchAux (.globstar :: ts) (seg ++ xs) = true := by
  induction seg with
  | nil =>
    rw [List.nil_append]
    cases xs with
    | nil => rw [globMatchAux_globstar_nil]; exact h2
    | cons x xs' => rw [globMatchAux_globstar_cons]; simp [h2]
  | cons a seg ih =>
    have ha : lineTerm a = false := h1 a (by simp)
    have hrec := ih (fun c hc => h1 c (by simp [hc]))
    rw [List.cons_append, globMatchAux_globstar_cons]
    simp [ha, hrec]

/-- The embedded matcher agrees with the declarative glob semantics of the
spec: a path is accepted exactly when the token list describes the entire
path. -/
theorem globMatchAux_iff_spec (ts : List GlobTok) (cs : List Char) :
    globMatchAux ts cs = true ↔ GlobSpec ts cs := by
  constructor
  · intro h
    induction ts, cs using globMatchAux.induct with
    | case1 => exact GlobSpec.nil
    | case2 => simp [globMatchAux] at h
    | case3 => simp [globMatchAux] at h
    | case4 c ts x xs ih =>
      rw [globMatchAux_lit_cons] at h
      simp only [Bool.and_eq_true, beq_iff_eq] at h
      exact h.1 ▸ GlobSpec.lit (ih h.2)
    | case5 => simp [globMatchAux] at h
    | case6 ts x xs ih1 ih2 =>
      rw [globMatchAux_star_cons] at h
      simp only [Bool.and_eq_true, Bool.or_eq_true, Bool.not_eq_true',
        beq_eq_false_iff_ne] at h
      rcases h.2 with h2 | h2
      · exact @GlobSpec.star _ [x] _ (by simp) (by simpa using h.1) (ih1 h2)
      · cases ih2 h2 with
        | star hne hseg hrest =>
          refine @GlobSpec.star _ (x :: _) _ (by simp) ?_ hrest
          intro c hc
          rcases List.mem_cons.mp hc with hc | hc
          · exact hc ▸ h.1
          · exact hseg c hc
    | case7 ts ih =>
      rw [globMatchAux_globstar_nil] at h
      exact @GlobSpec.globstar _ [] _ (by simp) (ih h)
    | case8 ts x xs ih1 ih2 =>
      rw [globMatchAux_globstar_cons] at h
      simp only [Bool.and_eq_true, Bool.or_eq_true, Bool.not_eq_true',
        beq_eq_false_iff_ne] at h
      rcases h with h1 | h2
      · exact @GlobSpec.globstar _ [] _ (by simp) (ih1 h1)
      · cases ih2 h2.2 with
        | globstar hseg hrest =>
          refine @GlobSpec.globstar _ (x :: _) _ ?_ hrest
          intro c hc
          rcases List.mem_cons.mp hc with hc | hc
          · exact hc ▸ h2.1
          · exact hseg c hc
  · intro h
    induction h with
    | nil => simp [globMatchAux]
    | lit _ ih => rw [globMatchAux_lit_cons]; simp [ih]
    | star hne hseg _ ih => exact globMatchAux_star_of _ _ _ hne hseg ih
    | globstar hseg _ ih => exact globMatchAux_globstar_of _ _ _ hseg ih

/-- Mapped literal tokens consume exactly their own characters. -/
theorem globMatchAux_lits_append (xs : List Char) (ts : List GlobTok) (cs : List Char) :
    globMatchAux (xs.map .lit ++ ts) (xs ++ cs) = globMatchAux ts cs := by
  induction xs with
  | nil => rfl
  | cons a xs ih =>
    rw [List.map_cons, List.cons_append, List.cons_append, globMatchAux_lit_cons]
    simp [ih]

/-- Specialization: literal tokens against exactly their own characters. -/
theorem globMatchAux_lits_self (xs : List Char) (ts : List GlobTok) :
    globMatchAux (xs.map .lit ++ ts) xs = globMatchAux ts [] := by
  have h := globMatchAux_lits_append xs ts []
  simpa using h

/-- Tokenizing a star-free prefix yields literal tokens. -/
theorem globTokens_append_of_no_star (xs t : List Char) (h : ∀ c ∈ xs, c ≠ '*') :
    globTokens (xs ++ t) = xs.map .lit ++ globTokens t := by
  induction xs with
  | nil => rfl
  | cons a xs ih =>
    have ha : a ≠ '*' := h a (by simp)
    have ih' := ih (fun c hc => h c (by simp [hc]))
    cases hxs : xs ++ t with
    | nil =>
      rcases List.append_eq_nil.mp hxs with ⟨h1, h2⟩
      subst h1; subst h2
      simp [globTokens, ha]
    | cons b l =>
      rw [List.cons_append, hxs, globTokens, if_neg ha, ← hxs, ih']
      rfl

/-- C4: `globToRegex` compiles an anchored full-string matcher.  The
compiled matcher accepts a path exactly when the declarative glob semantics
(`GlobSpec`) describe the *entire* path (so there is no prefix matching,
`*` never crosses a `/`, and `**` matches zero or more segments); in
particular `/products/*` rejects `/products/a/b` and `/docs/**` accepts
`/docs/a/b/c`.  The quantified part assumes the pattern contains no `?`,
the one regex metacharacter `globToRegex` fails to escape; the declarative
side records that the compiled `.*` cannot cross a JavaScript line
terminator. -/
theorem globToRegex_full_match :
    (∀ pattern path : String, pattern.toList.contains '?' = false →
      (globMatch pattern path = true ↔ GlobSpec (globTokens pattern.toList) path.toList))
    ∧ globMatch "/products/*" "/products/a/b" = false
    ∧ globMatch "/docs/**" "/docs/a/b/c" = true := by
  refine ⟨fun p s _ => globMatchAux_iff_spec _ _, ?_, ?_⟩
  · simp [globMatch, globMatchAux, globTokens]
  · simp [globMatch, globMatchAux, globTokens, lineTerm]

/-- Witness for C4 at concrete inputs. -/
theorem globToRegex_full_match_witness :
    globMatch "/docs/**" "/docs/a/b/c" = true
    ∧ GlobSpec (globTokens "/docs/**".toList) "/docs/a/b/c".toList :=
  ⟨globToRegex_full_match.2.2,
    (globToRegex_full_match.1 "/docs/**" "/docs/a/b/c" (by decide)).mp
      globToRegex_full_match.2.2⟩

/-- C9 counterexample to "accepts every deeper path": the compiled `.*`
cannot match a carriage return, so `/docs/**` rejects the deeper path
`/docs/` ++ `"a\rb"`. -/
theorem globMatch_lineTerm_counterexample :
    globMatch ("/docs" ++ "/**") ("/docs" ++ "/" ++ "a\rb") = false := by
  simp [globMatch, globMatchAux, globTokens, lineTerm]

/-- C9 (amended): for a pattern `<prefix>/**`, the compiled matcher rejects
the bare prefix (no trailing slash), accepts `<prefix>/`, and accepts every
deeper path that contains no JavaScript line terminator: `**` matches an
empty remainder only after the literal slash that precedes it.  (A deeper
path containing a line terminator is rejected, because `**` compiles to
`.*` and `.` cannot match one — see the counterexample.) -/
theorem globstar_zero_segment (pre : String)
    (h : ∀ c ∈ pre.toList, c ≠ '*' ∧ c ≠ '?') :
    globMatch (pre ++ "/**") pre = false
    ∧ globMatch (pre ++ "/**") (pre ++ "/") = true
    ∧ ∀ s : String, (∀ c ∈ s.toList, lineTerm c = false) →
        globMatch (pre ++ "/**") (pre ++ "/" ++ s) = true := by
  have hstar : ∀ c ∈ pre.toList, c ≠ '*' := fun c hc => (h c hc).1
  have htoks : globTokens (pre ++ "/**").toList
      = pre.toList.map .lit ++ [.lit '/', .globstar] := by
    have : (pre ++ "/**").toList = pre.toList ++ ['/', '*', '*'] := by
      show (pre ++ "/**").data = pre.data ++ ['/', '*', '*']
      rw [String.data_append]
    rw [this, globTokens_append_of_no_star _ _ hstar]
    rfl
  have hslash : "/".data = ['/'] := by decide
  have hdecomp : ∀ s : String, (pre ++ "/" ++ s).toList = pre.toList ++ '/' :: s.toList := by
    intro s
    show (pre ++ "/" ++ s).data = pre.data ++ '/' :: s.data
    rw [String.data_append, String.data_append, hslash, List.append_assoc]
    rfl
  refine ⟨?_, ?_, ?_⟩
  · rw [globMatch, htoks, globMatchAux_lits_self]
    simp [globMatchAux]
  · have hl : (pre ++ "/").toList = pre.toList ++ '/' :: [] := by
      show (pre ++ "/").data = pre.data ++ ['/']
      rw [String.data_append, hslash]
    rw [globMatch, htoks, hl, globMatchAux_lits_append, globMatchAux_lit_cons]
    simp [globMatchAux]
  · intro s hs
    rw [globMatch, htoks, hdecomp, globMatchAux_lits_append, globMatchAux_lit_cons]
    have : globMatchAux [.globstar] (s.toList ++ []) = true :=
      globMatchAux_globstar_of [] s.toList [] hs (by simp [globMatchAux])
    simp only [List.append_nil] at this
    simpa using this

/-- Witness for C9 at `/docs` with the deeper path `a/b/c`. -/
theorem globstar_zero_segment_witness :
    globMatch ("/docs" ++ "/**") "/docs" = false
    ∧ globMatch ("/docs" ++ "/**") ("/docs" ++ "/") = true
    ∧ globMatch ("/docs" ++ "/**") ("/docs" ++ "/" ++ "a/b/c") = true := by
  have h := globstar_zero_segment "/docs" (by decide)
  exact ⟨h.1, h.2.1, h.2.2 "a/b/c" (by decide)⟩

/-! ## Robots.txt parsing and merging (src/managed-rules/merge-utils.ts)

String manipulation is embedded on `List Char` with structural recursion so
that concrete instances evaluate inside the kernel.  `trim`/`toLowerCase`
follow the ASCII behaviour of their JavaScript counterparts (none of the
properties proved here involve non-ASCII whitespace or letters). -/

/-- JavaScript whitespace (ASCII part): space, tab, newline, carriage
return, vertical tab, form feed. -/
def jsWsChar (c : Char) : Bool :=
  c = ' ' || c = '\t' || c = '\n' || c = '\r' || c.toNat = 11 || c.toNat = 12

/-- `String.prototype.trim` (ASCII approximation). -/
def trimChars (cs : List Char) : List Char :=
  ((cs.dropWhile jsWsChar).reverse.dropWhile jsWsChar).reverse

/-- `content.split("\n")`. -/
def splitOnNl : List Char → List (List Char)
  | [] => [[]]
  | c :: rest =>
    if c = '\n' then [] :: splitOnNl rest
    else
      match splitOnNl rest with
      | l :: ls => (c :: l) :: ls
      | [] => [[c]]

/-- `String.prototype.toLowerCase` (ASCII approximation). -/
def lowerChars (cs : List Char) : List Char := cs.map Char.toLower

/-- `RobotsBlock` from merge-utils.ts: one `User-agent` plus its rule lines. -/
structure RobotsBlock where
  userAgent : List Char
  rules : List (List Char)
deriving DecidableEq

/-- The literal `"user-agent:"` (11 characters). -/
def uaLit : List Char := "user-agent:".toList

/-- Loop body of `parseRobotsTxt`: state is (currentAgent, currentRules,
emitted blocks). -/
def parseRobotsTxtAux :
    List (List Char) → Option (List Char) → List (List Char) → List RobotsBlock →
    List RobotsBlock
  | [], curA, curR, blocks =>
    (match curA with
     | some a => blocks ++ [⟨a, curR⟩]
     | none => blocks)
  | raw :: rest, curA, curR, blocks =>
    let line := trimChars raw
    if line.isEmpty || ['#'].isPrefixOf line then
      parseRobotsTxtAux rest curA curR blocks
    else if uaLit.isPrefixOf (lowerChars line) then
      parseRobotsTxtAux rest (some (trimChars (line.drop 11))) []
        (match curA with
         | some a => blocks ++ [⟨a, curR⟩]
         | none => blocks)
    else
      match curA with
      | some _ => parseRobotsTxtAux rest curA (curR ++ [line]) blocks
      | none => parseRobotsTxtAux rest none curR blocks

/-- `parseRobotsTxt` from merge-utils.ts. -/
def parseRobotsTxt (content : String) : List RobotsBlock :=
  parseRobotsTxtAux (splitOnNl content.toList) none [] []

/-- `block.userAgent.toLowerCase()` — the case-insensitive agent key. -/
def agentKey (b : RobotsBlock) : List Char := lowerChars b.userAgent

/-- The `botmonByAgent` JavaScript `Map` of `mergeRobotsTxt`, built by
`Map.set` over the managed blocks (so the **last** block for a key wins),
read through `Map.get`. -/
def botmonByAgentGet (blocks : List RobotsBlock) (key : List Char) : Option RobotsBlock :=
  blocks.foldl (fun acc b => if agentKey b = key then some b else acc) none

/-- Loop body shared by the keyed-override merges: push the override (and
record the key) when the lookup hits, otherwise push the element itself. -/
def overrideStep {α κ : Type} (get : α → Option α) (key : α → κ)
    (acc : List α × List κ) (x : α) : List α × List κ :=
  match get x with
  | some d => (acc.1 ++ [d], acc.2 ++ [key x])
  | none => (acc.1 ++ [x], acc.2)

/-- First loop of `mergeRobotsTxt`: walk the origin blocks pushing the
BotMon override (when the map has one) and recording the used agent key. -/
def mergedRobotsStep (originContent botmonContent : String) :
    List RobotsBlock × List (List Char) :=
  (parseRobotsTxt originContent).foldl
    (overrideStep (fun ob => botmonByAgentGet (parseRobotsTxt botmonContent) (agentKey ob))
      agentKey) ([], [])

/-- The `mergedBlocks` list computed by `mergeRobotsTxt` before printing:
origin blocks (with BotMon overrides) then BotMon-only blocks. -/
def mergedRobotsBlocks (originContent botmonContent : String) : List RobotsBlock :=
  (parseRobotsTxt botmonContent).foldl
    (fun acc bb =>
      if (mergedRobotsStep originContent botmonContent).2.contains (agentKey bb) then acc
      else acc ++ [bb])
    (mergedRobotsStep originContent botmonContent).1

/-- `blocksToString` from merge-utils.ts. -/
def blocksToString (blocks : List RobotsBlock) : String :=
  String.intercalate "\n\n" (blocks.map (fun b =>
    String.intercalate "\n"
      (String.mk ("User-agent: ".toList ++ b.userAgent) :: b.rules.map String.mk)))

/-- `mergeRobotsTxt` from merge-utils.ts. -/
def mergeRobotsTxt (originContent botmonContent : String) : String :=
  blocksToString (mergedRobotsBlocks originContent botmonContent)

/-! ### Generic lemmas about the keyed-override fold shape shared by
`mergeRobotsTxt` (merge-utils.ts) and `mergeGeoRules` (config-merger). -/

/-- The first loop: each element is replaced by its override (when one
exists) and the keys of overridden elements are recorded, in order. -/
theorem foldl_override_eq {α κ : Type} (get : α → Option α) (key : α → κ) :
    ∀ (l : List α) (acc : List α × List κ),
      l.foldl (overrideStep get key) acc
      = (acc.1 ++ l.map (fun x => (get x).getD x),
         acc.2 ++ (l.filter (fun x => (get x).isSome)).map key) := by
  intro l
  induction l with
  | nil => intro acc; simp
  | cons x xs ih =>
    intro acc
    rw [List.foldl_cons, ih]
    cases hx : get x with
    | some d => simp [overrideStep, List.filter_cons, hx]
    | none => simp [overrideStep, List.filter_cons, hx]

/-- The second loop: append exactly the elements whose key was not used. -/
theorem foldl_appendix_eq {α : Type} (p : α → Bool) :
    ∀ (l : List α) (init : List α),
      l.foldl (fun acc x => if p x then acc else acc ++ [x]) init
        = init ++ l.filter (fun x => !p x) := by
  intro l
  induction l with
  | nil => intro init; simp
  | cons x xs ih =>
    intro init
    rw [List.foldl_cons]
    by_cases hx : p x = true
    · rw [if_pos hx, ih]
      simp [List.filter_cons, hx]
    · rw [if_neg hx, ih]
      simp [List.filter_cons, hx]

/-! ### Properties of the last-wins keyed lookup `botmonByAgentGet`. -/

/-- If no block carries the key, the accumulator passes through. -/
theorem lastWinsGet_of_no_match (k : List Char) :
    ∀ (bs : List RobotsBlock) (a : Option RobotsBlock),
      (∀ b ∈ bs, agentKey b ≠ k) →
      bs.foldl (fun acc b => if agentKey b = k then some b else acc) a = a := by
  intro bs
  induction bs with
  | nil => intro a _; rfl
  | cons x xs ih =>
    intro a h
    rw [List.foldl_cons, if_neg (h x (by simp))]
    exact ih a (fun b hb => h b (by simp [hb]))

/-- A successful lookup returns a block of the list carrying the key. -/
theorem lastWinsGet_some (k : List Char) :
    ∀ (bs : List RobotsBlock) (a : Option RobotsBlock) (b : RobotsBlock),
      bs.foldl (fun acc b => if agentKey b = k then some b else acc) a = some b →
      (b ∈ bs ∧ agentKey b = k) ∨ a = some b := by
  intro bs
  induction bs with
  | nil => intro a b h; exact Or.inr h
  | cons x xs ih =>
    intro a b h
    rw [List.foldl_cons] at h
    by_cases hx : agentKey x = k
    · rcases ih _ b h with hmem | hacc
      · exact Or.inl ⟨List.mem_cons_of_mem x hmem.1, hmem.2⟩
      · rw [if_pos hx] at hacc
        injection hacc with hacc
        exact Or.inl ⟨hacc ▸ List.mem_cons_self x xs, hacc ▸ hx⟩
    · rcases ih _ b h with hmem | hacc
      · exact Or.inl ⟨List.mem_cons_of_mem x hmem.1, hmem.2⟩
      · rw [if_neg hx] at hacc
        exact Or.inr hacc

/-- With duplicate-free keys, looking up a member's key finds the member. -/
theorem lastWinsGet_mem (bs : List RobotsBlock) (b : RobotsBlock)
    (hnd : (bs.map agentKey).Nodup) (hb : b ∈ bs) :
    botmonByAgentGet bs (agentKey b) = some b := by
  induction bs with
  | nil => cases hb
  | cons x xs ih =>
    rw [List.map_cons, List.nodup_cons] at hnd
    rcases List.mem_cons.mp hb with hb | hb
    · subst hb
      have hrest : ∀ c ∈ xs, agentKey c ≠ agentKey b := by
        intro c hc he
        exact hnd.1 (he ▸ List.mem_map_of_mem agentKey hc)
      unfold botmonByAgentGet
      rw [List.foldl_cons, if_pos rfl]
      exact lastWinsGet_of_no_match _ xs _ hrest
    · have := ih hnd.2 hb
      unfold botmonByAgentGet at this ⊢
      rw [List.foldl_cons]
      by_cases hx : agentKey x = agentKey b
      · exact absurd (hx ▸ List.mem_map_of_mem agentKey hb) hnd.1
      · rw [if_neg hx]
        calc xs.foldl (fun acc c => if agentKey c = agentKey b then some c else acc) none
              = some b := this

/-- A lookup miss means no block carries the key. -/
theorem lastWinsGet_none (bs : List RobotsBlock) (k : List Char)
    (h : ∀ b ∈ bs, agentKey b ≠ k) : botmonByAgentGet bs k = none :=
  lastWinsGet_of_no_match k bs none h

/-- The fold underlying `botmonByAgentGet` yields `none` iff it started at
`none` and no block matched. -/
theorem lastWinsFold_eq_none (k : List Char) :
    ∀ (bs : List RobotsBlock) (a : Option RobotsBlock),
      (bs.foldl (fun acc b => if agentKey b = k then some b else acc) a = none)
        ↔ (a = none ∧ ∀ b ∈ bs, agentKey b ≠ k) := by
  intro bs
  induction bs with
  | nil => intro a; simp
  | cons x xs ih =>
    intro a
    rw [List.foldl_cons, ih]
    by_cases hx : agentKey x = k
    · simp [hx]
    · simp only [if_neg hx]
      constructor
      · rintro ⟨h1, h2⟩
        refine ⟨h1, ?_⟩
        intro b hb
        rcases List.mem_cons.mp hb with hb | hb
        · exact hb ▸ hx
        · exact h2 b hb
      · rintro ⟨h1, h2⟩
        exact ⟨h1, fun b hb => h2 b (List.mem_cons_of_mem x hb)⟩

/-- A member's key is always found by `botmonByAgentGet`. -/
theorem lastWinsGet_isSome_of_mem (bs : List RobotsBlock) (b : RobotsBlock)
    (hb : b ∈ bs) : (botmonByAgentGet bs (agentKey b)).isSome := by
  cases hg : botmonByAgentGet bs (agentKey b) with
  | some c => rfl
  | none =>
    have := (lastWinsFold_eq_none (agentKey b) bs none).mp hg
    exact absurd rfl (this.2 b hb)

/-- Unconditional characterization of the block list produced by
`mergeRobotsTxt`: origin blocks in order, each replaced by the managed
override for its case-insensitive agent key when one exists, followed by
the managed blocks whose key matches no origin block, in managed order. -/
theorem mergedRobotsBlocks_eq (o m : String) :
    mergedRobotsBlocks o m
      = (parseRobotsTxt o).map (fun ob =>
          (botmonByAgentGet (parseRobotsTxt m) (agentKey ob)).getD ob)
        ++ (parseRobotsTxt m).filter (fun mb =>
            !((parseRobotsTxt o).any (fun ob => agentKey ob == agentKey mb))) := by
  unfold mergedRobotsBlocks mergedRobotsStep
  rw [foldl_override_eq (fun ob => botmonByAgentGet (parseRobotsTxt m) (agentKey ob)) agentKey]
  rw [foldl_appendix_eq]
  simp only [List.nil_append]
  congr 1
  apply List.filter_congr
  intro mb hmb
  congr 1
  rw [Bool.eq_iff_iff]
  constructor
  · intro hc
    have hmem := List.elem_iff.mp hc
    rcases List.mem_map.mp hmem with ⟨ob, hob, hkey⟩
    have hob' := List.mem_filter.mp hob
    rw [List.any_eq_true]
    exact ⟨ob, hob'.1, beq_iff_eq.mpr hkey⟩
  · intro ha
    rcases List.any_eq_true.mp ha with ⟨ob, hob, hkey⟩
    have hkey' : agentKey ob = agentKey mb := beq_iff_eq.mp hkey
    apply List.elem_iff.mpr
    apply List.mem_map.mpr
    refine ⟨ob, List.mem_filter.mpr ⟨hob, ?_⟩, hkey'⟩
    rw [hkey']
    exact lastWinsGet_isSome_of_mem _ mb hmb

/-- The override found for a key carries that key. -/
theorem getD_agentKey (bs : List RobotsBlock) (ob : RobotsBlock) :
    agentKey ((botmonByAgentGet bs (agentKey ob)).getD ob) = agentKey ob := by
  cases hg : botmonByAgentGet bs (agentKey ob) with
  | none => rfl
  | some b =>
    rcases lastWinsGet_some (agentKey ob) bs none b hg with ⟨_, hk⟩ | habs
    · simpa using hk
    · cases habs

/-- C2 counterexample: the claim asserts that the output of
`mergeRobotsTxt` never contains two blocks with the same case-insensitive
user-agent name.  With an origin file that lists the agent `a` twice and a
managed file that overrides `a`, the override is emitted once per origin
occurrence, so the output parses back to two identical `a` blocks. -/
theorem mergeRobotsTxt_counterexample :
    parseRobotsTxt (mergeRobotsTxt
        "User-agent: a\nDisallow: /x\n\nUser-agent: a\nDisallow: /y"
        "User-agent: a\nDisallow: /z")
      = [⟨"a".toList, ["Disallow: /z".toList]⟩, ⟨"a".toList, ["Disallow: /z".toList]⟩] := by
  decide

/-- C2 amended: provided origin and managed files each name every agent at
most once (case-insensitively), `mergeRobotsTxt` produces origin blocks in
original order with managed overrides substituted, followed by
managed-only blocks in managed order; every managed block appears with its
own directive lines, non-overridden origin blocks appear unchanged, and no
two output blocks share a case-insensitive agent name.  (Without the
duplicate-free hypotheses the first conjunct still holds, but the output
can repeat an agent, as `mergeRobotsTxt_counterexample` shows.) -/
theorem mergeRobotsTxt_merge_semantics (o m : String)
    (hO : ((parseRobotsTxt o).map agentKey).Nodup)
    (hM : ((parseRobotsTxt m).map agentKey).Nodup) :
    mergedRobotsBlocks o m
      = (parseRobotsTxt o).map (fun ob =>
          (botmonByAgentGet (parseRobotsTxt m) (agentKey ob)).getD ob)
        ++ (parseRobotsTxt m).filter (fun mb =>
            !((parseRobotsTxt o).any (fun ob => agentKey ob == agentKey mb)))
    ∧ ((mergedRobotsBlocks o m).map agentKey).Nodup
    ∧ (∀ mb ∈ parseRobotsTxt m, mb ∈ mergedRobotsBlocks o m)
    ∧ (∀ ob ∈ parseRobotsTxt o,
        (∀ mb ∈ parseRobotsTxt m, agentKey mb ≠ agentKey ob) →
        ob ∈ mergedRobotsBlocks o m) := by
  have heq := mergedRobotsBlocks_eq o m
  have hmapkeys : ((parseRobotsTxt o).map (fun ob =>
      (botmonByAgentGet (parseRobotsTxt m) (agentKey ob)).getD ob)).map agentKey
      = (parseRobotsTxt o).map agentKey := by
    rw [List.map_map]
    exact List.map_congr_left (fun ob _ => getD_agentKey _ ob)
  refine ⟨heq, ?_, ?_, ?_⟩
  · rw [heq, List.map_append]
    apply List.Nodup.append
    · rw [hmapkeys]; exact hO
    · exact hM.sublist (List.Sublist.map agentKey (List.filter_sublist _))
    · intro a ha hb
      rw [hmapkeys] at ha
      rcases List.mem_map.mp ha with ⟨ob, hob, hka⟩
      rcases List.mem_map.mp hb with ⟨mb, hmb, hkb⟩
      have hmb' := List.mem_filter.mp hmb
      have : (parseRobotsTxt o).any (fun x => agentKey x == agentKey mb) = true := by
        rw [List.any_eq_true]
        exact ⟨ob, hob, beq_iff_eq.mpr (by rw [hka, hkb])⟩
      simp [this] at hmb'
  · intro mb hmb
    rw [heq]
    by_cases hex : (parseRobotsTxt o).any (fun ob => agentKey ob == agentKey mb) = true
    · apply List.mem_append_left
      rcases List.any_eq_true.mp hex with ⟨ob, hob, hkey⟩
      have hkey' : agentKey ob = agentKey mb := beq_iff_eq.mp hkey
      apply List.mem_map.mpr
      refine ⟨ob, hob, ?_⟩
      rw [hkey', lastWinsGet_mem (parseRobotsTxt m) mb hM hmb]
      rfl
    · apply List.mem_append_right
      apply List.mem_filter.mpr
      exact ⟨hmb, by simp [hex]⟩
  · intro ob hob hno
    rw [heq]
    apply List.mem_append_left
    apply List.mem_map.mpr
    refine ⟨ob, hob, ?_⟩
    rw [lastWinsGet_none (parseRobotsTxt m) (agentKey ob)
      (fun mb hmb => hno mb hmb)]
    rfl

/-- Witness for the amended C2 at §8 scenario 2 (origin `*` block is
overridden by the managed `*` block). -/
theorem mergeRobotsTxt_merge_semantics_witness :
    ((mergedRobotsBlocks "User-agent: *\nAllow: /"
        "User-agent: *\nDisallow: /private").map agentKey).Nodup :=
  (mergeRobotsTxt_merge_semantics "User-agent: *\nAllow: /"
    "User-agent: *\nDisallow: /private" (by decide) (by decide)).2.1

/-! ## Config merger (config-merger.ts): keyed merges of `geo.rules` and
`wellKnown.files` -/

/-- The `dashboardByPattern` JavaScript `Map` of `mergeGeoRules`, built by
`Map.set` (last dashboard rule for a pattern wins), read through `Map.get`. -/
def dashboardByPatternGet (rules : List GeoPageRule) (k : String) : Option GeoPageRule :=
  rules.foldl (fun acc r => if r.urlPattern = k then some r else acc) none

/-- First loop of `mergeGeoRules`: walk the SDK rules pushing the dashboard
override (when the map has one) and recording the used pattern. -/
def mergedGeoStep (sdkRules dashboardRules : List GeoPageRule) :
    List GeoPageRule × List String :=
  sdkRules.foldl
    (overrideStep (fun s => dashboardByPatternGet dashboardRules s.urlPattern)
      GeoPageRule.urlPattern) ([], [])

/-- `mergeGeoRules` from config-merger: SDK rules with dashboard overrides
substituted wholesale, then dashboard-only rules. -/
def mergeGeoRules (sdkRules dashboardRules : List GeoPageRule) : List GeoPageRule :=
  dashboardRules.foldl
    (fun acc d =>
      if (mergedGeoStep sdkRules dashboardRules).2.contains d.urlPattern then acc
      else acc ++ [d])
    (mergedGeoStep sdkRules dashboardRules).1

/-- The fold underlying `dashboardByPatternGet` yields `none` iff it started
at `none` and no rule matched. -/
theorem geoLastWinsFold_eq_none (k : String) :
    ∀ (rs : List GeoPageRule) (a : Option GeoPageRule),
      (rs.foldl (fun acc r => if r.urlPattern = k then some r else acc) a = none)
        ↔ (a = none ∧ ∀ r ∈ rs, r.urlPattern ≠ k) := by
  intro rs
  induction rs with
  | nil => intro a; simp
  | cons x xs ih =>
    intro a
    rw [List.foldl_cons, ih]
    by_cases hx : x.urlPattern = k
    · simp [hx]
    · simp only [if_neg hx]
      constructor
      · rintro ⟨h1, h2⟩
        refine ⟨h1, ?_⟩
        intro r hr
        rcases List.mem_cons.mp hr with hr | hr
        · exact hr ▸ hx
        · exact h2 r hr
      · rintro ⟨h1, h2⟩
        exact ⟨h1, fun r hr => h2 r (List.mem_cons_of_mem x hr)⟩

/-- A member's pattern is always found by `dashboardByPatternGet`. -/
theorem geoGet_isSome_of_mem (rs : List GeoPageRule) (r : GeoPageRule)
    (hr : r ∈ rs) : (dashboardByPatternGet rs r.urlPattern).isSome := by
  cases hg : dashboardByPatternGet rs r.urlPattern with
  | some c => rfl
  | none =>
    have := (geoLastWinsFold_eq_none r.urlPattern rs none).mp hg
    exact absurd rfl (this.2 r hr)

/-- Unconditional characterization of `mergeGeoRules`: every SDK rule is
replaced **wholesale** by the last dashboard rule sharing its `urlPattern`
(when one exists), in SDK order; dashboard rules whose pattern matches no
SDK rule are appended in dashboard order. -/
theorem mergeGeoRules_eq (sdkRules dashboardRules : List GeoPageRule) :
    mergeGeoRules sdkRules dashboardRules
      = sdkRules.map (fun s => (dashboardByPatternGet dashboardRules s.urlPattern).getD s)
        ++ dashboardRules.filter (fun d =>
            !(sdkRules.any (fun s => s.urlPattern == d.urlPattern))) := by
  unfold mergeGeoRules mergedGeoStep
  rw [foldl_override_eq (fun s => dashboardByPatternGet dashboardRules s.urlPattern)
    GeoPageRule.urlPattern]
  rw [foldl_appendix_eq]
  simp only [List.nil_append]
  congr 1
  apply List.filter_congr
  intro d hd
  congr 1
  rw [Bool.eq_iff_iff]
  constructor
  · intro hc
    have hmem := List.elem_iff.mp hc
    rcases List.mem_map.mp hmem with ⟨s, hs, hkey⟩
    have hs' := List.mem_filter.mp hs
    rw [List.any_eq_true]
    exact ⟨s, hs'.1, beq_iff_eq.mpr hkey⟩
  · intro ha
    rcases List.any_eq_true.mp ha with ⟨s, hs, hkey⟩
    have hkey' : s.urlPattern = d.urlPattern := beq_iff_eq.mp hkey
    apply List.elem_iff.mpr
    apply List.mem_map.mpr
    refine ⟨s, List.mem_filter.mpr ⟨hs, ?_⟩, hkey'⟩
    rw [hkey']
    exact geoGet_isSome_of_mem _ d hd

/-- SDK-side `.well-known` per-file config (`WellKnownFileConfig`): only a
mode, no content. -/
structure WellKnownFileLocal where
  mode : ManagedFileMode
deriving DecidableEq

/-- Remote-bundle `.well-known` per-file entry; the code defends against a
missing `mode` with `?? "replace"`, so `mode` is optional here. -/
structure WellKnownFileRemote where
  mode : Option ManagedFileMode := none
  content : Option String := none
deriving DecidableEq

/-- Resolved `.well-known` per-file entry. -/
structure WellKnownFileResolved where
  mode : ManagedFileMode
  content : Option String := none
deriving DecidableEq

/-- JavaScript object read `obj[k]` on an insertion-ordered association
list with unique keys. -/
def objLookup {α : Type} (l : List (String × α)) (k : String) : Option α :=
  (l.find? (fun p => p.1 == k)).map Prod.snd

/-- JavaScript object write `obj[k] = v`: updates the existing key in
place, otherwise appends. -/
def objSet {α : Type} (l : List (String × α)) (k : String) (v : α) : List (String × α) :=
  if l.any (fun p => p.1 == k) then l.map (fun p => if p.1 == k then (k, v) else p)
  else l ++ [(k, v)]

/-- Loop body of the dashboard overlay in `mergeWellKnown`
(config-merger): `mergedFiles[name] = { mode: remoteFile.mode ??
mergedFiles[name]?.mode ?? "replace", content: remoteFile.content }`. -/
def wellKnownOverlay (acc : List (String × WellKnownFileResolved))
    (p : String × WellKnownFileRemote) : List (String × WellKnownFileResolved) :=
  objSet acc p.1
    ⟨(p.2.mode).getD (((objLookup acc p.1).map WellKnownFileResolved.mode).getD .replace),
     p.2.content⟩

/-- The `files` merge of `mergeWellKnown` when a remote bundle is present:
start from the SDK files stripped to their modes, then overlay each remote
file. -/
def mergeWellKnownFiles (sdkFiles : List (String × WellKnownFileLocal))
    (remoteFiles : List (String × WellKnownFileRemote)) :
    List (String × WellKnownFileResolved) :=
  remoteFiles.foldl wellKnownOverlay
    (sdkFiles.map (fun p => (p.1, ⟨p.2.mode, none⟩)))

/-- Field-by-field resolution of an entry present in both sources: remote
mode wins, an absent remote mode inherits the local mode, content is the
remote content. -/
def wkResolveBoth (lf : WellKnownFileLocal) (rf : WellKnownFileRemote) :
    WellKnownFileResolved :=
  ⟨rf.mode.getD lf.mode, rf.content⟩

/-- Resolution of a remote-only entry: an absent mode defaults to replace. -/
def wkResolveRemote (rf : WellKnownFileRemote) : WellKnownFileResolved :=
  ⟨rf.mode.getD .replace, rf.content⟩

/-- How one SDK entry resolves against a processed remote prefix. -/
def wkResolveAgainst (done : List (String × WellKnownFileRemote))
    (p : String × WellKnownFileLocal) : String × WellKnownFileResolved :=
  (p.1,
    match objLookup done p.1 with
    | some rf => wkResolveBoth p.2 rf
    | none => ⟨p.2.mode, none⟩)

/-- The expected merge result against a processed remote prefix: SDK
entries (resolved) in original order, then remote-only entries in remote
order. -/
def wkExpected (sdk : List (String × WellKnownFileLocal))
    (done : List (String × WellKnownFileRemote)) :
    List (String × WellKnownFileResolved) :=
  sdk.map (wkResolveAgainst done)
    ++ (done.filter (fun q => !(sdk.any (fun p => p.1 == q.1)))).map
        (fun q => (q.1, wkResolveRemote q.2))

/-- Duplicate-free keys make entries with equal keys identical. -/
theorem nodupKeys_eq {α : Type} {l : List (String × α)}
    (h : (l.map Prod.fst).Nodup) {a b : String × α}
    (ha : a ∈ l) (hb : b ∈ l) (hk : a.1 = b.1) : a = b := by
  induction l with
  | nil => cases ha
  | cons x xs ih =>
    rw [List.map_cons, List.nodup_cons] at h
    rcases List.mem_cons.mp ha with ha1 | ha1
    · rcases List.mem_cons.mp hb with hb1 | hb1
      · rw [ha1, hb1]
      · exfalso
        apply h.1
        have hmem : b.1 ∈ xs.map Prod.fst := List.mem_map_of_mem Prod.fst hb1
        rw [← hk, ha1] at hmem
        exact hmem
    · rcases List.mem_cons.mp hb with hb1 | hb1
      · exfalso
        apply h.1
        have hmem : a.1 ∈ xs.map Prod.fst := List.mem_map_of_mem Prod.fst ha1
        rw [hk, hb1] at hmem
        exact hmem
      · exact ih h.2 ha1 hb1

/-- Appending a fresh-keyed remote entry does not change how an SDK entry
with a different key resolves. -/
theorem wkResolveAgainst_append (done : List (String × WellKnownFileRemote))
    (q : String × WellKnownFileRemote) (p : String × WellKnownFileLocal)
    (hne : p.1 ≠ q.1) : wkResolveAgainst (done ++ [q]) p = wkResolveAgainst done p := by
  unfold wkResolveAgainst objLookup
  rw [List.find?_append]
  have hq : List.find? (fun r => r.1 == p.1) [q] = none := by
    have : (q.1 == p.1) = false := by
      simp only [beq_eq_false_iff_ne, ne_eq]
      exact fun h => hne h.symm
    simp [List.find?, this]
  rw [hq]
  cases List.find? (fun r => r.1 == p.1) done <;> rfl

/-- `objLookup` over an append searches left first. -/
theorem objLookup_append {α : Type} (A B : List (String × α)) (k : String) :
    objLookup (A ++ B) k
      = (match objLookup A k with
         | some v => some v
         | none => objLookup B k) := by
  unfold objLookup
  rw [List.find?_append]
  cases List.find? (fun p => p.1 == k) A <;> rfl

/-- `objLookup` misses iff no entry carries the key. -/
theorem objLookup_eq_none_iff {α : Type} (l : List (String × α)) (k : String) :
    objLookup l k = none ↔ ∀ p ∈ l, p.1 ≠ k := by
  unfold objLookup
  rw [Option.map_eq_none', List.find?_eq_none]
  constructor
  · intro h p hp
    simpa using h p hp
  · intro h p hp
    simpa using h p hp

/-- `objLookup` through a key-preserving map. -/
theorem objLookup_map_keyed {α β : Type} (l : List (String × α))
    (f : (String × α) → (String × β)) (hf : ∀ p, (f p).1 = p.1) (k : String) :
    objLookup (l.map f) k = (l.find? (fun p => p.1 == k)).map (fun p => (f p).2) := by
  induction l with
  | nil => rfl
  | cons x xs ih =>
    unfold objLookup
    rw [List.map_cons, List.find?_cons, List.find?_cons]
    by_cases hx : (x.1 == k) = true
    · have hfx : ((f x).1 == k) = true := by rw [hf x]; exact hx
      simp [hx, hfx]
    · have hx' : (x.1 == k) = false := by simpa using hx
      have hfx : ((f x).1 == k) = false := by rw [hf x]; exact hx'
      simp only [hfx, hx', cond_false]
      exact ih

/-- With duplicate-free keys, `find?` at a member's key returns that member. -/
theorem find?_nodup_mem {α : Type} (l : List (String × α))
    (h : (l.map Prod.fst).Nodup) (p₀ : String × α) (hp : p₀ ∈ l) :
    l.find? (fun p => p.1 == p₀.1) = some p₀ := by
  induction l with
  | nil => cases hp
  | cons x xs ih =>
    rw [List.map_cons, List.nodup_cons] at h
    rw [List.find?_cons]
    by_cases hx : (x.1 == p₀.1) = true
    · have hx' : x.1 = p₀.1 := beq_iff_eq.mp hx
      have hxp : x = p₀ := by
        rcases List.mem_cons.mp hp with hp1 | hp1
        · rw [hp1]
        · exact absurd (hx' ▸ List.mem_map_of_mem Prod.fst hp1) h.1
      simp [hx, hxp]
    · have hp1 : p₀ ∈ xs := by
        rcases List.mem_cons.mp hp with hp1 | hp1
        · exfalso
          apply hx
          rw [hp1]
          simp
        · exact hp1
      simp only [hx, cond_false]
      exact ih h.2 hp1

/-- One overlay step preserves the expected-merge invariant. -/
theorem wellKnownOverlay_step (sdk : List (String × WellKnownFileLocal))
    (hS : (sdk.map Prod.fst).Nodup)
    (done : List (String × WellKnownFileRemote))
    (q : String × WellKnownFileRemote)
    (hq : ∀ r ∈ done, r.1 ≠ q.1) :
    wellKnownOverlay (wkExpected sdk done) q = wkExpected sdk (done ++ [q]) := by
  have hBkeys : ∀ r ∈ (done.filter (fun d => !(sdk.any (fun p => p.1 == d.1)))).map
      (fun d => (d.1, wkResolveRemote d.2)), r.1 ≠ q.1 := by
    intro r hr
    rcases List.mem_map.mp hr with ⟨d, hd, hrd⟩
    have hd' : d ∈ done := (List.mem_filter.mp hd).1
    rw [← hrd]
    exact hq d hd'
  have hdoneq : objLookup done q.1 = none := (objLookup_eq_none_iff done q.1).mpr hq
  have hsingle : objLookup [q] q.1 = some q.2 := by
    simp [objLookup, List.find?]
  by_cases hin : sdk.any (fun p => p.1 == q.1) = true
  · rcases List.any_eq_true.mp hin with ⟨p₀, hp₀, hkeyb⟩
    have hkey : p₀.1 = q.1 := beq_iff_eq.mp hkeyb
    have hfind : sdk.find? (fun p => p.1 == q.1) = some p₀ := by
      rw [← hkey]
      exact find?_nodup_mem sdk hS p₀ hp₀
    have hA : objLookup (sdk.map (wkResolveAgainst done)) q.1
        = some ⟨p₀.2.mode, none⟩ := by
      rw [objLookup_map_keyed sdk (wkResolveAgainst done) (fun p => rfl) q.1, hfind]
      show some (wkResolveAgainst done p₀).2 = some ⟨p₀.2.mode, none⟩
      unfold wkResolveAgainst
      rw [hkey, hdoneq]
    have hlook : objLookup (wkExpected sdk done) q.1 = some ⟨p₀.2.mode, none⟩ := by
      unfold wkExpected
      rw [objLookup_append, hA]
    have hany : (wkExpected sdk done).any (fun p => p.1 == q.1) = true := by
      rw [List.any_eq_true]
      refine ⟨wkResolveAgainst done p₀, List.mem_append_left _ (List.mem_map_of_mem _ hp₀), ?_⟩
      show ((wkResolveAgainst done p₀).1 == q.1) = true
      exact beq_iff_eq.mpr hkey
    have hfilters : (done ++ [q]).filter (fun d => !(sdk.any (fun p => p.1 == d.1)))
        = done.filter (fun d => !(sdk.any (fun p => p.1 == d.1))) := by
      rw [List.filter_append]
      have h1 : [q].filter (fun d => !(sdk.any (fun p => p.1 == d.1))) = [] := by
        simp [List.filter, hin]
      rw [h1, List.append_nil]
    unfold wellKnownOverlay
    rw [hlook]
    unfold objSet
    rw [if_pos hany]
    unfold wkExpected
    rw [List.map_append, hfilters]
    congr 1
    · rw [List.map_map]
      apply List.map_congr_left
      intro p hp
      by_cases hpq : (p.1 == q.1) = true
      · have hpq' : p.1 = q.1 := beq_iff_eq.mp hpq
        have hpeq : p = p₀ := nodupKeys_eq hS hp hp₀ (by rw [hpq', hkey])
        show (if (wkResolveAgainst done p).1 == q.1 then _ else _)
            = wkResolveAgainst (done ++ [q]) p
        rw [if_pos (show ((wkResolveAgainst done p).1 == q.1) = true from hpq)]
        unfold wkResolveAgainst
        rw [objLookup_append, hpq', hdoneq, hsingle]
        simp [wkResolveBoth, hpeq]
      · have hpq' : ((wkResolveAgainst done p).1 == q.1) = false := by simpa using hpq
        show (if (wkResolveAgainst done p).1 == q.1 then _ else _)
            = wkResolveAgainst (done ++ [q]) p
        rw [if_neg (by simp [hpq'])]
        exact (wkResolveAgainst_append done q p (by simpa using hpq)).symm
    · rw [List.map_map]
      apply List.map_congr_left
      intro d hd
      have hdk : (d.1 ≠ q.1) := by
        have hd' : d ∈ done := (List.mem_filter.mp hd).1
        exact hq d hd'
      show (if (d.1, wkResolveRemote d.2).1 == q.1 then _ else _) = (d.1, wkResolveRemote d.2)
      rw [if_neg (by simpa using hdk)]
  · have hin' : (sdk.any fun p => p.1 == q.1) = false := Bool.eq_false_iff.mpr hin
    have hnot : ∀ p ∈ sdk, p.1 ≠ q.1 := by
      intro p hp
      simpa using List.any_eq_false.mp hin' p hp
    have hA : objLookup (sdk.map (wkResolveAgainst done)) q.1 = none := by
      apply (objLookup_eq_none_iff _ _).mpr
      intro r hr
      rcases List.mem_map.mp hr with ⟨p, hp, hpr⟩
      rw [← hpr]
      exact hnot p hp
    have hB : objLookup ((done.filter (fun d => !(sdk.any (fun p => p.1 == d.1)))).map
        (fun d => (d.1, wkResolveRemote d.2))) q.1 = none :=
      (objLookup_eq_none_iff _ _).mpr hBkeys
    have hlook : objLookup (wkExpected sdk done) q.1 = none := by
      unfold wkExpected
      rw [objLookup_append, hA, hB]
    have hany : (wkExpected sdk done).any (fun p => p.1 == q.1) = false := by
      apply List.any_eq_false.mpr
      intro r hr
      rcases List.mem_append.mp hr with hr | hr
      · rcases List.mem_map.mp hr with ⟨p, hp, hpr⟩
        simp only [← hpr]
        simpa using hnot p hp
      · simpa using hBkeys r hr
    unfold wellKnownOverlay
    rw [hlook]
    unfold objSet
    rw [if_neg (by simp [hany])]
    unfold wkExpected
    have hmapA : sdk.map (wkResolveAgainst (done ++ [q])) = sdk.map (wkResolveAgainst done) := by
      apply List.map_congr_left
      intro p hp
      exact wkResolveAgainst_append done q p (hnot p hp)
    have hfilters : (done ++ [q]).filter (fun d => !(sdk.any (fun p => p.1 == d.1)))
        = done.filter (fun d => !(sdk.any (fun p => p.1 == d.1))) ++ [q] := by
      rw [List.filter_append]
      congr 1
      simp [List.filter, hin']
    rw [hmapA, hfilters, List.map_append, List.append_assoc]
    rfl

/-- Folding the overlay over a fresh remote suffix extends the invariant. -/
theorem wellKnownFold (sdk : List (String × WellKnownFileLocal))
    (hS : (sdk.map Prod.fst).Nodup) :
    ∀ (rest done : List (String × WellKnownFileRemote)),
      ((done ++ rest).map Prod.fst).Nodup →
      rest.foldl wellKnownOverlay (wkExpected sdk done) = wkExpected sdk (done ++ rest) := by
  intro rest
  induction rest with
  | nil => intro done _; simp
  | cons q rest ih =>
    intro done hnd
    have hq : ∀ r ∈ done, r.1 ≠ q.1 := by
      intro r hr he
      have h1 : (done.map Prod.fst ++ q.1 :: rest.map Prod.fst).Nodup := by
        simpa using hnd
      have hdisj := List.disjoint_of_nodup_append h1
      exact hdisj (he ▸ List.mem_map_of_mem Prod.fst hr) (List.mem_cons_self _ _)
    rw [List.foldl_cons, wellKnownOverlay_step sdk hS done q hq]
    have hnd' : (((done ++ [q]) ++ rest).map Prod.fst).Nodup := by
      rw [List.append_assoc, List.singleton_append]
      exact hnd
    rw [ih (done ++ [q]) hnd', List.append_assoc, List.singleton_append]

/-- Characterization of the `files` merge of `mergeWellKnown` under a
remote bundle (keys are unique in each source, as JavaScript object keys
are): SDK entries first in original order — an entry also present remotely
is merged field-by-field with the remote mode winning, an absent remote
mode inheriting the SDK mode, and content taken from the remote entry —
then remote-only entries in remote order with mode defaulting to
replace. -/
theorem mergeWellKnownFiles_eq (sdk : List (String × WellKnownFileLocal))
    (remote : List (String × WellKnownFileRemote))
    (hS : (sdk.map Prod.fst).Nodup) (hR : (remote.map Prod.fst).Nodup) :
    mergeWellKnownFiles sdk remote = wkExpected sdk remote := by
  unfold mergeWellKnownFiles
  have h0 : sdk.map (fun p => ((p.1 : String),
      (⟨p.2.mode, none⟩ : WellKnownFileResolved))) = wkExpected sdk [] := by
    unfold wkExpected
    simp only [List.filter_nil, List.map_nil, List.append_nil]
    apply List.map_congr_left
    intro p _
    rfl
  rw [h0, wellKnownFold sdk hS remote [] (by simpa using hR)]
  rw [List.nil_append]

/-- Concrete SDK-side GEO rule used in the C3 counterexample. -/
def sdkRuleCx : GeoPageRule := { urlPattern := "/a", summary := some "s" }

/-- Concrete dashboard GEO rule used in the C3 counterexample (same
pattern, no summary). -/
def dashRuleCx : GeoPageRule := { urlPattern := "/a", pageType := some .product }

/-- C3 counterexample: the claim asserts that an entry present in both
sources is merged field-by-field with absent remote fields inheriting the
local value.  For `geo.rules` the dashboard rule replaces the SDK rule
wholesale: the SDK rule's `summary` is *not* inherited when the dashboard
rule omits it. -/
theorem mergeGeoRules_counterexample :
    mergeGeoRules [sdkRuleCx] [dashRuleCx] = [dashRuleCx]
    ∧ dashRuleCx.summary = none
    ∧ sdkRuleCx.summary = some "s" := by
  refine ⟨by decide, rfl, rfl⟩

/-- C3 amended: in `mergeConfig` the keyed collections are merged
entry-wise, not wholesale, with local entries first in original order and
remote-only entries appended in their order; for `wellKnown.files` an
entry present in both sources is merged field-by-field (remote mode wins,
absent remote mode inherits the local mode, content comes from the remote
entry), but for `geo.rules` an entry present in both sources is replaced
**wholesale** by the (last) dashboard rule with that `urlPattern` — absent
dashboard fields do not inherit the SDK rule's values. -/
theorem mergeConfig_keyed_collections :
    (∀ sdkRules dashboardRules : List GeoPageRule,
      mergeGeoRules sdkRules dashboardRules
        = sdkRules.map (fun s => (dashboardByPatternGet dashboardRules s.urlPattern).getD s)
          ++ dashboardRules.filter (fun d =>
              !(sdkRules.any (fun s => s.urlPattern == d.urlPattern))))
    ∧ (∀ (sdkFiles : List (String × WellKnownFileLocal))
         (remoteFiles : List (String × WellKnownFileRemote)),
        (sdkFiles.map Prod.fst).Nodup → (remoteFiles.map Prod.fst).Nodup →
        mergeWellKnownFiles sdkFiles remoteFiles = wkExpected sdkFiles remoteFiles) :=
  ⟨mergeGeoRules_eq, mergeWellKnownFiles_eq⟩

/-- Concrete SDK `.well-known` files used in the C3 witness. -/
def wkSdkW : List (String × WellKnownFileLocal) := [("llms.txt", ⟨.replace⟩)]

/-- Concrete remote `.well-known` files used in the C3 witness: one
overlapping entry without a mode, one remote-only entry. -/
def wkRemW : List (String × WellKnownFileRemote) :=
  [("llms.txt", ⟨none, some "hello"⟩), ("security.txt", ⟨some .replace, some "x"⟩)]

/-- Witness for the amended C3 at concrete inputs. -/
theorem mergeConfig_keyed_collections_witness :
    mergeWellKnownFiles wkSdkW wkRemW = wkExpected wkSdkW wkRemW :=
  mergeConfig_keyed_collections.2 wkSdkW wkRemW (by decide) (by decide)

/-! ## Pipeline orchestrator (src/middleware/pipeline.ts)

The orchestrator is asynchronous and effectful; it is embedded by explicit
effect passing: each managed-file handler and the GEO engine are
parameters that either return a value (`Except.ok`) or throw
(`Except.error ε`), mirroring the `try`/`catch` around each stage.  The
pipeline itself returns a plain pair — the fact that no `Except.error`
appears in its result type is exactly the source's guarantee that stage
errors are caught and never propagated. -/

/-- Parsed request URL (only the pathname is consulted). -/
structure Url where
  pathname : String
deriving DecidableEq

/-- An HTTP response: status, headers (stored with lower-case names, as
the `Headers` class does), body text. -/
structure Response where
  status : Nat
  headers : List (String × String)
  body : String
deriving DecidableEq

/-- `ResponseContext` (src/types/middleware.types.ts), restricted to the
fields the pipeline reads: the parsed URL, the origin response and the AI
classification flag. -/
structure ResponseContext where
  url : Url
  response : Response
  isAiBot : Bool
deriving DecidableEq

/-- `PipelineStageResult` (src/types/middleware.types.ts): stages report
`handled` plus an optional response. -/
structure PipelineStageResult where
  handled : Bool
  response : Option Response
deriving DecidableEq

/-- Resolved `robotsTxt` / `sitemap` section. -/
structure ManagedFileSection where
  enabled : Bool
  mode : ManagedFileMode
  content : Option String := none
deriving DecidableEq

/-- Resolved `wellKnown` section. -/
structure WellKnownSection where
  enabled : Bool
  files : List (String × WellKnownFileResolved)
deriving DecidableEq

/-- Resolved `geo` section. -/
structure GeoSection where
  enabled : Bool
  injectJsonLd : Bool
  injectSummary : Bool
  enrichHeadings : Bool
  rules : List GeoPageRule
deriving DecidableEq

/-- `ResolvedConfig` (src/types/managed-rules.types.ts). -/
structure ResolvedConfig where
  robotsTxt : ManagedFileSection
  sitemap : ManagedFileSection
  wellKnown : WellKnownSection
  geo : GeoSection
deriving DecidableEq

/-- `GeoOptimizationResult` as consumed by the pipeline. -/
structure GeoResult where
  modified : Bool
  response : Response
  pageType : Option PageType := none

/-- The sitemap path test `/^\/sitemap(-[\w-]+)?\.xml$/` embedded as a
direct string predicate: `/sitemap.xml`, or `/sitemap-` + a nonempty run
of word characters or dashes + `.xml`. -/
def sitemapPathTest (p : String) : Bool :=
  p == "/sitemap.xml" ||
  (p.startsWith "/sitemap-" && p.endsWith ".xml" &&
    (let mid := (p.drop 9).dropRight 4
     decide (1 ≤ mid.length) && mid.toList.all (fun c => c.isAlphanum || c == '_' || c == '-')))

/-- The robots-txt stage of `runPipeline`, with the handler
(`handleRobotsTxt`) passed explicitly. -/
def robotsStage {ε : Type}
    (handleRobotsTxt : ResponseContext → ManagedFileSection →
      (Unit → Except ε Response) → Except ε Response)
    (ctx : ResponseContext) (cfg : ResolvedConfig)
    (originFetch : Unit → Except ε Response) : Except ε PipelineStageResult :=
  if !cfg.robotsTxt.enabled || cfg.robotsTxt.mode == .disabled then .ok ⟨false, none⟩
  else if ctx.url.pathname != "/robots.txt" then .ok ⟨false, none⟩
  else (handleRobotsTxt ctx cfg.robotsTxt originFetch).map (fun r => ⟨true, some r⟩)

/-- The sitemap stage of `runPipeline`. -/
def sitemapStage {ε : Type}
    (handleSitemap : ResponseContext → ManagedFileSection →
      (Unit → Except ε Response) → Except ε Response)
    (ctx : ResponseContext) (cfg : ResolvedConfig)
    (originFetch : Unit → Except ε Response) : Except ε PipelineStageResult :=
  if !cfg.sitemap.enabled || cfg.sitemap.mode == .disabled then .ok ⟨false, none⟩
  else if !sitemapPathTest ctx.url.pathname then .ok ⟨false, none⟩
  else (handleSitemap ctx cfg.sitemap originFetch).map (fun r => ⟨true, some r⟩)

/-- The well-known stage of `runPipeline`: the filename is the pathname
with the `/.well-known/` prefix removed (JS `replace` of the first
occurrence, which `startsWith` places at position 0). -/
def wellKnownStage {ε : Type}
    (handleWellKnown : String → WellKnownFileResolved → Except ε Response)
    (ctx : ResponseContext) (cfg : ResolvedConfig) : Except ε PipelineStageResult :=
  if !cfg.wellKnown.enabled then .ok ⟨false, none⟩
  else if !ctx.url.pathname.startsWith "/.well-known/" then .ok ⟨false, none⟩
  else
    match objLookup cfg.wellKnown.files (ctx.url.pathname.drop 13) with
    | none => .ok ⟨false, none⟩
    | some fileConfig =>
      if fileConfig.mode == .disabled then .ok ⟨false, none⟩
      else (handleWellKnown (ctx.url.pathname.drop 13) fileConfig).map
        (fun r => ⟨true, some r⟩)

/-- The `result.handled && result.response` check of the stage loop: a
stage takes effect only when it ran without throwing, reported `handled`
and produced a (truthy) response. -/
def stageHit {ε : Type} : Except ε PipelineStageResult → Option Response
  | .ok ⟨true, some r⟩ => some r
  | _ => none

/-- The post-origin GEO phase of `runPipeline`: runs only when GEO is
enabled and the request is from an AI bot; a throw is caught and leaves
the origin response in place. -/
def geoPhase {ε : Type}
    (applyGeoOptimization : Response → ResponseContext → GeoSection → Except ε GeoResult)
    (ctx : ResponseContext) (cfg : ResolvedConfig) : Response × List String :=
  if cfg.geo.enabled && ctx.isAiBot then
    match applyGeoOptimization ctx.response ctx cfg.geo with
    | .ok g => if g.modified then (g.response, ["geo"]) else (ctx.response, [])
    | .error _ => (ctx.response, [])
  else (ctx.response, [])

/-- `runPipeline` (src/middleware/pipeline.ts): run the managed-file
stages in order inside try/catch (an `Except.error` is logged and the next
stage still runs; a handled stage returns immediately with its name
recorded), then the GEO phase.  No error value appears in the result
type: this is the `try`/`catch` of the source. -/
def runPipeline {ε : Type}
    (handleRobotsTxt : ResponseContext → ManagedFileSection →
      (Unit → Except ε Response) → Except ε Response)
    (handleSitemap : ResponseContext → ManagedFileSection →
      (Unit → Except ε Response) → Except ε Response)
    (handleWellKnown : String → WellKnownFileResolved → Except ε Response)
    (applyGeoOptimization : Response → ResponseContext → GeoSection → Except ε GeoResult)
    (ctx : ResponseContext) (cfg : ResolvedConfig)
    (originFetch : Unit → Except ε Response) : Response × List String :=
  match stageHit (robotsStage handleRobotsTxt ctx cfg originFetch) with
  | some r => (r, ["robots-txt"])
  | none =>
    match stageHit (sitemapStage handleSitemap ctx cfg originFetch) with
    | some r => (r, ["sitemap"])
    | none =>
      match stageHit (wellKnownStage handleWellKnown ctx cfg) with
      | some r => (r, ["well-known"])
      | none => geoPhase applyGeoOptimization ctx cfg

/-- A stage whose handler always throws never takes effect. -/
theorem stageHit_robots_none {ε : Type}
    (hr : ResponseContext → ManagedFileSection → (Unit → Except ε Response) → Except ε Response)
    (ctx : ResponseContext) (cfg : ResolvedConfig) (originFetch : Unit → Except ε Response)
    (h : ∀ c sec f, ∃ e : ε, hr c sec f = .error e) :
    stageHit (robotsStage hr ctx cfg originFetch) = none := by
  unfold robotsStage
  split
  · rfl
  · split
    · rfl
    · obtain ⟨e, he⟩ := h ctx cfg.robotsTxt originFetch
      rw [he]
      rfl

/-- A sitemap handler that always throws never takes effect. -/
theorem stageHit_sitemap_none {ε : Type}
    (hs : ResponseContext → ManagedFileSection → (Unit → Except ε Response) → Except ε Response)
    (ctx : ResponseContext) (cfg : ResolvedConfig) (originFetch : Unit → Except ε Response)
    (h : ∀ c sec f, ∃ e : ε, hs c sec f = .error e) :
    stageHit (sitemapStage hs ctx cfg originFetch) = none := by
  unfold sitemapStage
  split
  · rfl
  · split
    · rfl
    · obtain ⟨e, he⟩ := h ctx cfg.sitemap originFetch
      rw [he]
      rfl

/-- A well-known handler that always throws never takes effect. -/
theorem stageHit_wellKnown_none {ε : Type}
    (hw : String → WellKnownFileResolved → Except ε Response)
    (ctx : ResponseContext) (cfg : ResolvedConfig)
    (h : ∀ n fc, ∃ e : ε, hw n fc = .error e) :
    stageHit (wellKnownStage hw ctx cfg) = none := by
  unfold wellKnownStage
  split
  · rfl
  · split
    · rfl
    · split
      · rfl
      · split
        · rfl
        · obtain ⟨e, he⟩ := h (ctx.url.pathname.drop 13) _
          rw [he]
          rfl

/-- C1: `runPipeline` is fail-open.  (1) If every stage handler and the
GEO engine throw, the pipeline still returns — no error propagates, the
response is the unmodified origin response from the context, and the
applied-rules list is empty.  (2) A throw does not abort the pipeline: if
the robots-txt handler always throws but the sitemap stage is applicable
and its handler returns a response, that response is served and only
"sitemap" is recorded. -/
theorem runPipeline_fail_open {ε : Type}
    (hr hs : ResponseContext → ManagedFileSection →
      (Unit → Except ε Response) → Except ε Response)
    (hw : String → WellKnownFileResolved → Except ε Response)
    (hg : Response → ResponseContext → GeoSection → Except ε GeoResult)
    (ctx : ResponseContext) (cfg : ResolvedConfig)
    (originFetch : Unit → Except ε Response) :
    ((∀ c sec f, ∃ e : ε, hr c sec f = .error e) →
     (∀ c sec f, ∃ e : ε, hs c sec f = .error e) →
     (∀ n fc, ∃ e : ε, hw n fc = .error e) →
     (∀ resp c gc, ∃ e : ε, hg resp c gc = .error e) →
     runPipeline hr hs hw hg ctx cfg originFetch = (ctx.response, []))
    ∧ ((∀ c sec f, ∃ e : ε, hr c sec f = .error e) →
       cfg.sitemap.enabled = true → cfg.sitemap.mode ≠ .disabled →
       sitemapPathTest ctx.url.pathname = true →
       ∀ r, hs ctx cfg.sitemap originFetch = .ok r →
       runPipeline hr hs hw hg ctx cfg originFetch = (r, ["sitemap"])) := by
  constructor
  · intro h1 h2 h3 h4
    unfold runPipeline
    rw [stageHit_robots_none hr ctx cfg originFetch h1,
        stageHit_sitemap_none hs ctx cfg originFetch h2,
        stageHit_wellKnown_none hw ctx cfg h3]
    show geoPhase hg ctx cfg = (ctx.response, [])
    unfold geoPhase
    split
    · obtain ⟨e, he⟩ := h4 ctx.response ctx cfg.geo
      rw [he]
    · rfl
  · intro h1 hen hmode hpath r hok
    unfold runPipeline
    rw [stageHit_robots_none hr ctx cfg originFetch h1]
    have hsit : stageHit (sitemapStage hs ctx cfg originFetch) = some r := by
      unfold sitemapStage
      have hcond : (!cfg.sitemap.enabled || cfg.sitemap.mode == ManagedFileMode.disabled)
          = false := by
        rw [hen]
        simp [beq_eq_false_iff_ne.mpr hmode]
      rw [if_neg (by simp [hcond]), if_neg (by simp [hpath]), hok]
      rfl
    rw [hsit]

/-- Concrete context for the C1 witness. -/
def ctxW : ResponseContext := ⟨⟨"/robots.txt"⟩, ⟨200, [], "origin body"⟩, true⟩

/-- Concrete fully-enabled config for the C1 witness. -/
def cfgW : ResolvedConfig :=
  ⟨⟨true, .replace, some "User-agent: *"⟩, ⟨true, .merge, none⟩,
   ⟨true, [("llms.txt", ⟨.replace, some "c"⟩)]⟩, ⟨true, true, true, true, []⟩⟩

/-- Witness for C1: with handlers that always throw (error type `String`),
the pipeline returns the unmodified origin response and no applied rules. -/
theorem runPipeline_fail_open_witness :
    runPipeline (ε := String)
      (fun _ _ _ => .error "E") (fun _ _ _ => .error "E")
      (fun _ _ => .error "E") (fun _ _ _ => .error "E")
      ctxW cfgW (fun _ => .ok ⟨200, [], "origin body"⟩)
      = (ctxW.response, []) :=
  (runPipeline_fail_open _ _ _ _ ctxW cfgW _).1
    (fun _ _ _ => ⟨"E", rfl⟩) (fun _ _ _ => ⟨"E", rfl⟩)
    (fun _ _ => ⟨"E", rfl⟩) (fun _ _ _ => ⟨"E", rfl⟩)

/-! ## Remote config fetcher (api-client, `fetchConfig`)

Embedded by explicit effect passing: the edge-cache lookup, the network
fetch and the JSON parses are inputs (`Except Unit` marks a throw), and
edge-cache writes are emitted as data.  A parsed JSON body is
`Option β` (`none` is JSON `null` — the cached "no config" sentinel);
`writeOk` says whether `cache.put` succeeds (`cacheResponse` swallows its
failures, so a failed write only suppresses the stored entry). -/

/-- Outcome of the `fetch` call: HTTP status plus the `response.json()`
outcome. -/
structure ApiResponse (β : Type) where
  status : Nat
  jsonBody : Except Unit (Option β)

/-- One edge-cache write: the JSON body stored and its `max-age`. -/
structure CacheWrite (β : Type) where
  body : Option β
  maxAge : Nat
deriving DecidableEq

/-- The effect environment of one `fetchConfig` call. -/
structure FetchEnv (β : Type) where
  cacheHit : Option (Except Unit (Option β))
  fetchOutcome : Except Unit (ApiResponse β)
  writeOk : Bool

/-- `Response.ok`: status in the 2xx range. -/
def respOk (status : Nat) : Bool := decide (200 ≤ status) && decide (status ≤ 299)

/-- `fetchConfig` (api-client): edge cache first; on miss, fetch — 404
caches an explicit `null` sentinel for the TTL and returns null, other
non-2xx and network errors return null without caching, 2xx parses,
caches with `max-age` = TTL and returns the body.  Cache writes are
best-effort (`cacheResponse` swallows failures). -/
def fetchConfig {β : Type} (env : FetchEnv β) (cacheTtlSeconds : Nat) :
    Option β × List (CacheWrite β) :=
  match env.cacheHit with
  | some (.ok v) => (v, [])
  | _ =>
    match env.fetchOutcome with
    | .error _ => (none, [])
    | .ok response =>
      if response.status == 404 then
        (none, if env.writeOk then [⟨none, cacheTtlSeconds⟩] else [])
      else if !respOk response.status then
        (none, [])
      else
        match response.jsonBody with
        | .error _ => (none, [])
        | .ok body => (body, if env.writeOk then [⟨body, cacheTtlSeconds⟩] else [])

/-- C8: `fetchConfig` distinguishes the three network outcomes on a cache
miss — 404 returns null and stores the null sentinel with `max-age` = TTL
(when the cache write succeeds), other non-2xx statuses and network
errors return null without writing the cache, and a 2xx response is
parsed, stored with `max-age` = TTL and returned — and the returned value
never depends on whether the cache write succeeds. -/
theorem fetchConfig_outcomes {β : Type} (env : FetchEnv β) (ttl : Nat)
    (hmiss : ∀ v, env.cacheHit ≠ some (.ok v)) :
    (∀ resp, env.fetchOutcome = .ok resp → resp.status = 404 →
      fetchConfig env ttl = (none, if env.writeOk then [⟨none, ttl⟩] else []))
    ∧ (∀ resp, env.fetchOutcome = .ok resp → resp.status ≠ 404 →
        respOk resp.status = false → fetchConfig env ttl = (none, []))
    ∧ (∀ e, env.fetchOutcome = .error e → fetchConfig env ttl = (none, []))
    ∧ (∀ resp v, env.fetchOutcome = .ok resp → respOk resp.status = true →
        resp.jsonBody = .ok v →
        fetchConfig env ttl = (v, if env.writeOk then [⟨v, ttl⟩] else []))
    ∧ (∀ w : Bool, (fetchConfig env ttl).1
        = (fetchConfig { env with writeOk := w } ttl).1) := by
  have hred : ∀ (k : Option β × List (CacheWrite β)),
      (match env.fetchOutcome with
        | .error _ => (none, [])
        | .ok response =>
          if response.status == 404 then
            (none, if env.writeOk then [⟨none, ttl⟩] else [])
          else if !respOk response.status then (none, [])
          else match response.jsonBody with
            | .error _ => (none, [])
            | .ok body => (body, if env.writeOk then [⟨body, ttl⟩] else []))
        = k →
      fetchConfig env ttl = k := by
    intro k hk
    unfold fetchConfig
    rcases hc : env.cacheHit with _ | x
    · exact hk
    · rcases x with u | v
      · exact hk
      · exact absurd hc (hmiss v)
  refine ⟨?_, ?_, ?_, ?_, ?_⟩
  · intro resp ho h404
    apply hred
    rw [ho]
    simp [h404]
  · intro resp ho h404 hok
    apply hred
    rw [ho]
    have : (resp.status == 404) = false := by simpa using h404
    simp [this, hok]
  · intro e ho
    apply hred
    rw [ho]
  · intro resp v ho hok hbody
    apply hred
    rw [ho]
    have h404 : (resp.status == 404) = false := by
      have h1 : resp.status ≤ 299 := by
        have := hok
        unfold respOk at this
        simp only [Bool.and_eq_true, decide_eq_true_eq] at this
        exact this.2
      simp only [beq_eq_false_iff_ne, ne_eq]
      omega
    simp [h404, hok, hbody]
  · intro w
    unfold fetchConfig
    rcases hc : env.cacheHit with _ | x
    · simp only []
      rcases env.fetchOutcome with e | resp
      · rfl
      · by_cases h404 : (resp.status == 404) = true
        · simp [h404]
        · by_cases hok : respOk resp.status = true
          · cases hb : resp.jsonBody <;> simp [h404, hok, hb]
          · simp [h404, Bool.eq_false_iff.mpr hok]
    · rcases x with u | v
      · simp only []
        rcases env.fetchOutcome with e | resp
        · rfl
        · by_cases h404 : (resp.status == 404) = true
          · simp [h404]
          · by_cases hok : respOk resp.status = true
            · cases hb : resp.jsonBody <;> simp [h404, hok, hb]
            · simp [h404, Bool.eq_false_iff.mpr hok]
      · exact absurd hc (hmiss v)

/-- Concrete effect environment for the C8 witness: cache miss, HTTP 404,
cache write succeeds. -/
def env404 : FetchEnv Nat := ⟨none, .ok ⟨404, .error ()⟩, true⟩

/-- Witness for C8: on a 404 the null sentinel is stored with the
configured TTL and null is returned. -/
theorem fetchConfig_outcomes_witness :
    fetchConfig env404 300 = (none, [⟨none, 300⟩]) := by
  have h := (fetchConfig_outcomes env404 300 (fun v hv => by cases hv)).1
    ⟨404, .error ()⟩ rfl rfl
  simpa [env404] using h

/-! ## Regex scanners shared by the page-type detector and the HTML
extractors (page-type-detector, src/geo/html-utils.ts)

Each JavaScript regex is embedded as a deterministic scanner over
`List Char` with the same acceptance/capture semantics; `/i` matching
compares through `Char.toLower` (ASCII, which covers every literal the
source uses). -/

/-- Case-insensitive literal match at the head: `pat` is given in lower
case; returns the rest after the literal. -/
def ciPrefix : List Char → List Char → Option (List Char)
  | [], cs => some cs
  | _ :: _, [] => none
  | p :: ps, c :: cs => if c.toLower = p then ciPrefix ps cs else none

/-- Case-insensitive substring test (used for regexes that are plain
literal searches under `/i`). -/
def hasSubCi (pat : List Char) : List Char → Bool
  | [] => (ciPrefix pat []).isSome
  | c :: rest => (ciPrefix pat (c :: rest)).isSome || hasSubCi pat rest

/-- Case-insensitive suffix test (for `/...$/i` regexes). -/
def endsCi (pat : List Char) (cs : List Char) : Bool :=
  pat.isSuffixOf (cs.map Char.toLower)

/-- `[^>]*` followed by `>`: split at the first `>`. -/
def splitAtGtL : List Char → Option (List Char × List Char)
  | [] => none
  | c :: rest =>
    if c = '>' then some ([], rest)
    else (splitAtGtL rest).map (fun p => (c :: p.1, p.2))

/-- Suffix after the first case-insensitive occurrence of `pat` (the lazy
`[\s\S]*?` up to a literal). -/
def splitAtSubCi (pat : List Char) : List Char → Option (List Char)
  | [] => if pat.isEmpty then some [] else none
  | c :: rest =>
    match ciPrefix pat (c :: rest) with
    | some r => some r
    | none => splitAtSubCi pat rest

/-- A quote character, for the `["']` classes. -/
def quoteChar (c : Char) : Bool := c = '"' || c = '\''

/-- Expect one quote character. -/
def expectQuote : List Char → Option (List Char)
  | c :: rest => if quoteChar c then some rest else none
  | [] => none

/-- First success of `f` along a list (backtracking order). -/
def firstSome {α β : Type} (f : α → Option β) : List α → Option β
  | [] => none
  | x :: xs =>
    match f x with
    | some b => some b
    | none => firstSome f xs

/-- All suffixes following a case-insensitive occurrence of `lit`
reachable from the start without crossing `>` (the `[^>]*lit` backbone of
the meta-tag regexes), in left-to-right order; greedy matching tries them
right-to-left. -/
def candidatesNoGt (lit : List Char) : List Char → List (List Char)
  | [] => []
  | c :: rest =>
    (match ciPrefix lit (c :: rest) with
     | some r => [r]
     | none => []) ++ (if c = '>' then [] else candidatesNoGt lit rest)

/-- All splits of the input at a quote character, in left-to-right order
(lazy `([\s\S]*?)["']` tries them in this order). -/
def splitsAtQuotes : List Char → List (List Char × List Char)
  | [] => []
  | c :: rest =>
    (if quoteChar c then [(([] : List Char), rest)] else [])
      ++ (splitsAtQuotes rest).map (fun p => (c :: p.1, p.2))

/-! Length bounds used for termination of the jumping scanners. -/

/-- `ciPrefix` never lengthens the input. -/
theorem ciPrefix_length_le :
    ∀ (pat cs r : List Char), ciPrefix pat cs = some r → r.length ≤ cs.length := by
  intro pat
  induction pat with
  | nil =>
    intro cs r h
    cases h
    exact Nat.le_refl _
  | cons p ps ih =>
    intro cs r h
    cases cs with
    | nil => cases h
    | cons c cs' =>
      unfold ciPrefix at h
      by_cases hc : c.toLower = p
      · rw [if_pos hc] at h
        exact Nat.le_succ_of_le (ih cs' r h)
      · rw [if_neg hc] at h
        cases h

/-- A nonempty literal consumes at least one character. -/
theorem ciPrefix_length_lt (p : Char) (ps : List Char) :
    ∀ (cs r : List Char), ciPrefix (p :: ps) cs = some r → r.length < cs.length := by
  intro cs r h
  cases cs with
  | nil => cases h
  | cons c cs' =>
    unfold ciPrefix at h
    by_cases hc : c.toLower = p
    · rw [if_pos hc] at h
      exact Nat.lt_succ_of_le (ciPrefix_length_le ps cs' r h)
    · rw [if_neg hc] at h
      cases h

/-- The part after the first `>` is shorter than the input. -/
theorem splitAtGtL_length :
    ∀ (cs : List Char) (a b : List Char), splitAtGtL cs = some (a, b) →
      b.length < cs.length := by
  intro cs
  induction cs with
  | nil => intro a b h; cases h
  | cons c rest ih =>
    intro a b h
    unfold splitAtGtL at h
    by_cases hc : c = '>'
    · rw [if_pos hc] at h
      injection h with h
      injection h with h1 h2
      rw [← h2]
      exact Nat.lt_succ_of_le (Nat.le_refl _)
    · rw [if_neg hc] at h
      cases hr : splitAtGtL rest with
      | none => rw [hr] at h; cases h
      | some p =>
        rw [hr] at h
        injection h with h
        rcases p with ⟨p1, p2⟩
        injection h with h1 h2
        rw [← h2]
        exact Nat.lt_succ_of_lt (ih p1 p2 hr)

/-- The suffix after a literal occurrence never lengthens the input. -/
theorem splitAtSubCi_length_le (pat : List Char) :
    ∀ (cs r : List Char), splitAtSubCi pat cs = some r → r.length ≤ cs.length := by
  intro cs
  induction cs with
  | nil =>
    intro r h
    unfold splitAtSubCi at h
    by_cases hp : pat.isEmpty
    · rw [if_pos hp] at h
      cases h
      exact Nat.le_refl _
    · rw [if_neg hp] at h
      cases h
  | cons c rest ih =>
    intro r h
    unfold splitAtSubCi at h
    cases hc : ciPrefix pat (c :: rest) with
    | some r' =>
      rw [hc] at h
      injection h with h
      rw [← h]
      exact ciPrefix_length_le pat (c :: rest) r' hc
    | none =>
      rw [hc] at h
      exact Nat.le_succ_of_le (ih r h)

/-! ## Page type detector (page-type-detector source file) -/

/-- The `URL_PATTERNS` table: each regex test embedded as a predicate on
the pathname characters, paired with its page type, in source order. -/
def URL_PATTERNS : List ((List Char → Bool) × PageType) :=
  [ (fun p => hasSubCi "/product/".toList p || hasSubCi "/products/".toList p, .product),
    (fun p => hasSubCi "/shop/".toList p, .product),
    (fun p => hasSubCi "/item/".toList p, .product),
    (fun p => endsCi "/pricing".toList p || endsCi "/pricing/".toList p, .pricing),
    (fun p => endsCi "/plan".toList p || endsCi "/plans".toList p
      || endsCi "/plan/".toList p || endsCi "/plans/".toList p, .pricing),
    (fun p => endsCi "/faq".toList p || endsCi "/faq/".toList p, .faq),
    (fun p => hasSubCi "/frequently-asked".toList p, .faq),
    (fun p => hasSubCi "/doc/".toList p || hasSubCi "/docs/".toList p, .docs),
    (fun p => hasSubCi "/documentation/".toList p, .docs),
    (fun p => hasSubCi "/api/".toList p, .docs),
    (fun p => hasSubCi "/guide/".toList p, .docs),
    (fun p => hasSubCi "/blog/".toList p, .article),
    (fun p => hasSubCi "/article/".toList p || hasSubCi "/articles/".toList p, .article),
    (fun p => hasSubCi "/post/".toList p || hasSubCi "/posts/".toList p, .article),
    (fun p => hasSubCi "/news/".toList p, .article),
    (fun p => hasSubCi "/how-to".toList p, .howTo),
    (fun p => hasSubCi "/tutorial".toList p, .howTo),
    (fun p => hasSubCi "/compar".toList p, .comparison),
    (fun p => hasSubCi "/vs/".toList p, .comparison),
    (fun p => hasSubCi "-vs-".toList p, .comparison) ]

/-- `detectFromUrl`: first matching URL pattern wins, confidence medium. -/
def detectFromUrl (pathname : String) : Option PageTypeResult :=
  (URL_PATTERNS.find? (fun e => e.1 pathname.toList)).map
    (fun e => ⟨e.2, .medium, .urlPattern⟩)

/-- The continuation of the first `og:type` regex after `<meta`:
`[^>]*property=["']og:type["'][^>]*content=["']([^"']+)["']`, returning
the capture.  Greedy `[^>]*` tries the latest viable literal first. -/
def ogTypeAfterMetaA (cs : List Char) : Option (List Char) :=
  firstSome (fun r₁ =>
      match expectQuote r₁ with
      | none => none
      | some r₂ =>
        match ciPrefix "og:type".toList r₂ with
        | none => none
        | some r₃ =>
          match expectQuote r₃ with
          | none => none
          | some r₄ =>
            firstSome (fun r₅ =>
                match expectQuote r₅ with
                | none => none
                | some r₆ =>
                  let cap := r₆.takeWhile (fun c => !quoteChar c)
                  if cap.isEmpty then none
                  else
                    match r₆.drop cap.length with
                    | c :: _ => if quoteChar c then some cap else none
                    | [] => none)
              ((candidatesNoGt "content=".toList r₄).reverse))
    ((candidatesNoGt "property=".toList cs).reverse)

/-- The continuation of the second `og:type` regex after `<meta`:
`[^>]*content=["']([\s\S]*?)["'][^>]*property=["']og:type["']`; the lazy
capture tries quote splits left to right. -/
def ogTypeAfterMetaB (cs : List Char) : Option (List Char) :=
  firstSome (fun r₁ =>
      match expectQuote r₁ with
      | none => none
      | some r₂ =>
        firstSome (fun (capSplit : List Char × List Char) =>
            firstSome (fun r₄ =>
                match expectQuote r₄ with
                | none => none
                | some r₅ =>
                  match ciPrefix "og:type".toList r₅ with
                  | none => none
                  | some r₆ =>
                    match expectQuote r₆ with
                    | none => none
                    | some _ => some capSplit.1)
              ((candidatesNoGt "property=".toList capSplit.2).reverse))
          (splitsAtQuotes r₂))
    ((candidatesNoGt "content=".toList cs).reverse)

/-- Leftmost-match scan of the whole document for one `og:type` regex. -/
def scanMeta (after : List Char → Option (List Char)) : List Char → Option (List Char)
  | [] => none
  | c :: rest =>
    match
      (match ciPrefix "<meta".toList (c :: rest) with
       | some r => after r
       | none => none) with
    | some cap => some cap
    | none => scanMeta after rest

/-- Continuation of the `article:published_time` presence regex after
`<meta`. -/
def pubTimeAfterMeta (cs : List Char) : Bool :=
  (candidatesNoGt "property=".toList cs).any (fun r =>
    match expectQuote r with
    | some r₂ =>
      match ciPrefix "article:published_time".toList r₂ with
      | some r₃ => (expectQuote r₃).isSome
      | none => false
    | none => false)

/-- `/<meta[^>]*property=["']article:published_time["']/i.test(html)`. -/
def hasPublishedTime : List Char → Bool
  | [] => false
  | c :: rest =>
    (match ciPrefix "<meta".toList (c :: rest) with
     | some r => pubTimeAfterMeta r
     | none => false) || hasPublishedTime rest

/-- The `article:published_time` fallthrough of `detectFromMeta`. -/
def pubTimeResult (cs : List Char) : Option PageTypeResult :=
  if hasPublishedTime cs then some ⟨.article, .high, .metaTag⟩ else none

/-- `detectFromMeta`: `og:type` (either attribute order) dispatched on its
value, then the `article:published_time` signal. -/
def detectFromMeta (html : String) : Option PageTypeResult :=
  match
    (match scanMeta ogTypeAfterMetaA html.toList with
     | some cap => some cap
     | none => scanMeta ogTypeAfterMetaB html.toList) with
  | some cap =>
    if lowerChars cap = "article".toList || lowerChars cap = "blog".toList then
      some ⟨.article, .high, .metaTag⟩
    else if lowerChars cap = "product".toList
        || lowerChars cap = "product.item".toList then
      some ⟨.product, .high, .metaTag⟩
    else pubTimeResult html.toList
  | none => pubTimeResult html.toList

/-- One match attempt of the question-heading regex
`<h[23][^>]*>[^<]*\?[^<]*<\/h[23]>` at the current position; returns the
rest after the match. -/
def tryQH : List Char → Option (List Char)
  | '<' :: h :: d :: rest =>
    if (h = 'h' || h = 'H') && (d = '2' || d = '3') then
      match splitAtGtL rest with
      | none => none
      | some p =>
        if (p.2.takeWhile (fun c => c ≠ '<')).contains '?' then
          match p.2.drop (p.2.takeWhile (fun c => c ≠ '<')).length with
          | '<' :: '/' :: h₂ :: d₂ :: '>' :: r₄ =>
            if (h₂ = 'h' || h₂ = 'H') && (d₂ = '2' || d₂ = '3') then some r₄ else none
          | _ => none
        else none
    else none
  | _ => none

/-- A question-heading match consumes at least one character. -/
theorem tryQH_length : ∀ (cs r : List Char), tryQH cs = some r → r.length < cs.length := by
  intro cs r h
  unfold tryQH at h
  split at h
  · rename_i hh d rest
    split at h
    · rename_i hcond
      split at h
      · exact absurd h (by simp)
      · rename_i p hsplit
        split at h
        · split at h
          · rename_i r₄ hdrop
            split at h
            · injection h with h
              subst h
              have hlt := splitAtGtL_length rest p.1 p.2 (by
                cases p
                exact hsplit)
              have hdl := congrArg List.length hdrop
              rw [List.length_drop] at hdl
              simp only [List.length_cons] at hdl
              simp only [List.length_cons]
              omega
            · exact absurd h (by simp)
          · exact absurd h (by simp)
        · exact absurd h (by simp)
    · exact absurd h (by simp)
  · exact absurd h (by simp)

/-- `countQH`: number of (non-overlapping, leftmost) question-heading
matches — `html.match(...).length` for the global regex. -/
def countQH : List Char → Nat
  | [] => 0
  | c :: rest =>
    match hm : tryQH (c :: rest) with
    | some after => 1 + countQH after
    | none => countQH rest
termination_by cs => cs.length
decreasing_by
  · exact tryQH_length _ _ hm
  · simp

/-- Optional `(?:\.\d{2})?` tail of the `$` price regex. -/
def usdFraction (r₂ : List Char) : List Char :=
  match r₂ with
  | '.' :: a :: b :: r => if a.isDigit && b.isDigit then r else r₂
  | _ => r₂

/-- The fraction tail never lengthens the input. -/
theorem usdFraction_le (r₂ : List Char) : (usdFraction r₂).length ≤ r₂.length := by
  unfold usdFraction
  split
  · split
    · simp only [List.length_cons]
      omega
    · exact Nat.le_refl _
  · exact Nat.le_refl _

/-- `countUsd`: number of matches of `\$[\d,]+(?:\.\d{2})?` (global,
non-overlapping, leftmost). -/
def countUsd : List Char → Nat
  | [] => 0
  | c :: rest =>
    if c = '$' then
      if hrun : (rest.takeWhile (fun ch => ch.isDigit || ch = ',')).isEmpty then countUsd rest
      else 1 + countUsd (usdFraction
        (rest.drop (rest.takeWhile (fun ch => ch.isDigit || ch = ',')).length))
    else countUsd rest
termination_by cs => cs.length
decreasing_by
  · simp
  · have h1 := usdFraction_le
      (rest.drop (rest.takeWhile (fun ch => ch.isDigit || ch = ',')).length)
    rw [List.length_drop] at h1
    have h2 : 1 ≤ (rest.takeWhile (fun ch => ch.isDigit || ch = ',')).length := by
      cases hh : rest.takeWhile (fun ch => ch.isDigit || ch = ',') with
      | nil => rw [hh] at hrun; simp at hrun
      | cons x xs => simp [hh]
    simp only [List.length_cons]
    omega
  · simp

/-- One match attempt of `(?:USD|EUR|GBP)\s*[\d,]+` at the current
position. -/
def tryCur (cs : List Char) : Option (List Char) :=
  match firstSome (fun lit => ciPrefix lit cs)
      ["usd".toList, "eur".toList, "gbp".toList] with
  | none => none
  | some r₁ =>
    if ((r₁.drop (r₁.takeWhile jsWsChar).length).takeWhile
        (fun c => c.isDigit || c = ',')).isEmpty then none
    else some ((r₁.drop (r₁.takeWhile jsWsChar).length).drop
      ((r₁.drop (r₁.takeWhile jsWsChar).length).takeWhile
        (fun c => c.isDigit || c = ',')).length)

/-- A successful `firstSome` comes from a member. -/
theorem firstSome_some {α β : Type} (f : α → Option β) :
    ∀ (l : List α) (r : β), firstSome f l = some r → ∃ x ∈ l, f x = some r := by
  intro l
  induction l with
  | nil => intro r h; cases h
  | cons x xs ih =>
    intro r h
    unfold firstSome at h
    cases hx : f x with
    | some b =>
      rw [hx] at h
      injection h with h
      exact ⟨x, List.mem_cons_self _ _, h ▸ hx⟩
    | none =>
      rw [hx] at h
      rcases ih r h with ⟨y, hy, hfy⟩
      exact ⟨y, List.mem_cons_of_mem x hy, hfy⟩

/-- A currency match consumes at least one character. -/
theorem tryCur_length : ∀ (cs r : List Char), tryCur cs = some r → r.length < cs.length := by
  intro cs r h
  unfold tryCur at h
  cases hf : firstSome (fun lit => ciPrefix lit cs)
      ["usd".toList, "eur".toList, "gbp".toList] with
  | none => rw [hf] at h; cases h
  | some r₁ =>
    rw [hf] at h
    rcases firstSome_some _ _ _ hf with ⟨lit, hlit, hci⟩
    have hr₁ : r₁.length < cs.length := by
      have hl : lit = "usd".toList ∨ lit = "eur".toList ∨ lit = "gbp".toList := by
        simpa using hlit
      rcases hl with h1 | h1 | h1 <;>
        { subst h1; exact ciPrefix_length_lt _ _ cs r₁ hci }
    have h' : (if ((r₁.drop (r₁.takeWhile jsWsChar).length).takeWhile
          (fun c => c.isDigit || c = ',')).isEmpty then none
        else some ((r₁.drop (r₁.takeWhile jsWsChar).length).drop
          ((r₁.drop (r₁.takeWhile jsWsChar).length).takeWhile
            (fun c => c.isDigit || c = ',')).length)) = some r := h
    split at h'
    · cases h'
    · injection h' with h'
      subst h'
      rw [List.length_drop, List.length_drop]
      omega

/-- `countCur`: number of matches of `(?:USD|EUR|GBP)\s*[\d,]+`. -/
def countCur : List Char → Nat
  | [] => 0
  | c :: rest =>
    match hm : tryCur (c :: rest) with
    | some after => 1 + countCur after
    | none => countCur rest
termination_by cs => cs.length
decreasing_by
  · exact tryCur_length _ _ hm
  · simp

/-- One match attempt of `<TAG[^>]*>[\s\S]*?</TAG>` at the current
position (used for pre, code and ol blocks). -/
def tryBlock (o : Char) (os closeTag : List Char) (cs : List Char) : Option (List Char) :=
  match ciPrefix (o :: os) cs with
  | none => none
  | some r₁ =>
    match splitAtGtL r₁ with
    | none => none
    | some p => splitAtSubCi closeTag p.2

/-- A block match consumes at least one character. -/
theorem tryBlock_length (o : Char) (os closeTag : List Char) :
    ∀ (cs r : List Char), tryBlock o os closeTag cs = some r → r.length < cs.length := by
  intro cs r h
  unfold tryBlock at h
  cases h1 : ciPrefix (o :: os) cs with
  | none => rw [h1] at h; cases h
  | some r₁ =>
    rw [h1] at h
    have h' : (match splitAtGtL r₁ with
        | none => none
        | some p => splitAtSubCi closeTag p.2) = some r := h
    cases h2 : splitAtGtL r₁ with
    | none => rw [h2] at h'; cases h'
    | some p =>
      rw [h2] at h'
      have h'' : splitAtSubCi closeTag p.2 = some r := h'
      have ha := ciPrefix_length_lt o os cs r₁ h1
      have hb := splitAtGtL_length r₁ p.1 p.2 (by cases p; exact h2)
      have hc := splitAtSubCi_length_le closeTag p.2 r h''
      omega

/-- `countBlocksCi`: number of matches of `<TAG[^>]*>[\s\S]*?</TAG>`. -/
def countBlocksCi (o : Char) (os closeTag : List Char) : List Char → Nat
  | [] => 0
  | c :: rest =>
    match hm : tryBlock o os closeTag (c :: rest) with
    | some after => 1 + countBlocksCi o os closeTag after
    | none => countBlocksCi o os closeTag rest
termination_by cs => cs.length
decreasing_by
  · exact tryBlock_length o os closeTag _ _ hm
  · simp

/-- `/<ol[^>]*>[\s\S]*?<\/ol>/gi` produced at least one match. -/
def hasOlBlock : List Char → Bool
  | [] => false
  | c :: rest =>
    (tryBlock '<' "ol".toList "</ol>".toList (c :: rest)).isSome || hasOlBlock rest

/-- `step\s+\d` (case-insensitive). -/
def hasStepDigit : List Char → Bool
  | [] => false
  | c :: rest =>
    (match ciPrefix "step".toList (c :: rest) with
     | some r =>
       let ws := r.takeWhile jsWsChar
       decide (1 ≤ ws.length) &&
         (match r.drop ws.length with
          | d :: _ => d.isDigit
          | [] => false)
     | none => false) || hasStepDigit rest

/-- The step-keyword test `/step\s+\d|how to|instructions/i`. -/
def hasStepKeywords (cs : List Char) : Bool :=
  hasStepDigit cs || hasSubCi "how to".toList cs || hasSubCi "instructions".toList cs

/-- `detectFromContent` (page-type-detector): FAQ, pricing, how-to and
docs content heuristics, in source order, including the
`match(A) || match(B)` null-propagation for prices and code blocks. -/
def detectFromContent (html : String) : Option PageTypeResult :=
  let cs := html.toList
  if 3 ≤ countQH cs then some ⟨.faq, .medium, .contentHeuristic⟩
  else
    let a := countUsd cs
    let priceCount := if 0 < a then a else countCur cs
    if 2 ≤ priceCount then some ⟨.pricing, .medium, .contentHeuristic⟩
    else if hasOlBlock cs && hasStepKeywords cs then
      some ⟨.howTo, .low, .contentHeuristic⟩
    else
      let pre := countBlocksCi '<' "pre".toList "</pre>".toList cs
      let codeCount :=
        if 0 < pre then pre else countBlocksCi '<' "code".toList "</code>".toList cs
      if 3 ≤ codeCount then some ⟨.docs, .low, .contentHeuristic⟩
      else none

/-- `findMatchingRule` (page-type-detector): first rule whose compiled
glob accepts the pathname. -/
def findMatchingRule (pathname : String) (rules : List GeoPageRule) : Option GeoPageRule :=
  rules.find? (fun r => globMatch r.urlPattern pathname)

/-- `detectPageType` (page-type-detector): GEO rule, then URL pattern,
then meta tags, then content heuristics, then the generic default. -/
def detectPageType (pathname html : String) (geoRules : List GeoPageRule) :
    PageTypeResult :=
  match (findMatchingRule pathname geoRules).bind (fun r => r.pageType) with
  | some t => ⟨t, .high, .geoRule⟩
  | none =>
    match detectFromUrl pathname with
    | some r => r
    | none =>
      match detectFromMeta html with
      | some r => r
      | none =>
        match detectFromContent html with
        | some r => r
        | none => ⟨.generic, .low, .dflt⟩

/-- A URL-pattern hit always reports medium confidence from the
url-pattern source. -/
theorem detectFromUrl_shape (pathname : String) (r : PageTypeResult)
    (h : detectFromUrl pathname = some r) :
    r.confidence = .medium ∧ r.source = .urlPattern := by
  unfold detectFromUrl at h
  cases hf : URL_PATTERNS.find? (fun e => e.1 pathname.toList) with
  | none => rw [hf] at h; cases h
  | some e =>
    rw [hf] at h
    injection h with h
    subst h
    exact ⟨rfl, rfl⟩

/-- A meta-tag hit always reports high confidence from the meta-tag
source. -/
theorem detectFromMeta_shape (html : String) (r : PageTypeResult)
    (h : detectFromMeta html = some r) :
    r.confidence = .high ∧ r.source = .metaTag := by
  unfold detectFromMeta at h
  have hpub : ∀ s : PageTypeResult, pubTimeResult html.toList = some s →
      s.confidence = .high ∧ s.source = .metaTag := by
    intro s hs
    unfold pubTimeResult at hs
    split at hs
    · injection hs with hs
      subst hs
      exact ⟨rfl, rfl⟩
    · cases hs
  split at h
  · split at h
    · injection h with h
      subst h
      exact ⟨rfl, rfl⟩
    · split at h
      · injection h with h
        subst h
        exact ⟨rfl, rfl⟩
      · exact hpub r h
  · exact hpub r h

/-- C5: `detectPageType` evaluates exactly one tier — the first satisfied
one — in the order rule > URL pattern > meta tag > content heuristic >
default; a matching rule carrying a page type wins outright with high
confidence from the rule ("geo-rule") source, a URL-pattern hit yields
medium confidence, a meta-tag hit yields high confidence, and when no tier
matches the result is generic/low/default. -/
theorem detectPageType_priority (pathname html : String) (rules : List GeoPageRule) :
    (∀ t, (findMatchingRule pathname rules).bind (fun r => r.pageType) = some t →
      detectPageType pathname html rules = ⟨t, .high, .geoRule⟩)
    ∧ ((findMatchingRule pathname rules).bind (fun r => r.pageType) = none →
       ∀ u, detectFromUrl pathname = some u →
         detectPageType pathname html rules = u
           ∧ u.confidence = .medium ∧ u.source = .urlPattern)
    ∧ ((findMatchingRule pathname rules).bind (fun r => r.pageType) = none →
       detectFromUrl pathname = none →
       ∀ v, detectFromMeta html = some v →
         detectPageType pathname html rules = v
           ∧ v.confidence = .high ∧ v.source = .metaTag)
    ∧ ((findMatchingRule pathname rules).bind (fun r => r.pageType) = none →
       detectFromUrl pathname = none → detectFromMeta html = none →
       ∀ w, detectFromContent html = some w →
         detectPageType pathname html rules = w)
    ∧ ((findMatchingRule pathname rules).bind (fun r => r.pageType) = none →
       detectFromUrl pathname = none → detectFromMeta html = none →
       detectFromContent html = none →
       detectPageType pathname html rules = ⟨.generic, .low, .dflt⟩) := by
  refine ⟨?_, ?_, ?_, ?_, ?_⟩
  · intro t ht
    unfold detectPageType
    rw [ht]
  · intro h0 u hu
    refine ⟨?_, detectFromUrl_shape pathname u hu⟩
    unfold detectPageType
    rw [h0, hu]
  · intro h0 h1 v hv
    refine ⟨?_, detectFromMeta_shape html v hv⟩
    unfold detectPageType
    rw [h0, h1, hv]
  · intro h0 h1 h2 w hw
    unfold detectPageType
    rw [h0, h1, h2, hw]
  · intro h0 h1 h2 h3
    unfold detectPageType
    rw [h0, h1, h2, h3]

/-- Concrete rule for the C5 witness. -/
def ruleW : GeoPageRule := { urlPattern := "/x", pageType := some .product }

/-- Witness for C5: a matching rule with a page type decides the result
outright (the html argument is irrelevant). -/
theorem detectPageType_priority_witness :
    detectPageType "/x" "" [ruleW] = ⟨.product, .high, .geoRule⟩ :=
  (detectPageType_priority "/x" "" [ruleW]).1 .product
    (by simp [findMatchingRule, ruleW, globMatch, globMatchAux, globTokens, List.find?])

/-! ## HTML extraction utilities (src/geo/html-utils.ts) -/

/-- Non-overlapping global literal replacement (`String.prototype.replace`
with a global literal-equivalent regex); the literal is `l0 :: lit`. -/
def replaceAll (l0 : Char) (lit rep : List Char) : List Char → List Char
  | [] => []
  | c :: rest =>
    if (l0 :: lit).isPrefixOf (c :: rest) then
      rep ++ replaceAll l0 lit rep (rest.drop lit.length)
    else c :: replaceAll l0 lit rep rest
termination_by cs => cs.length
decreasing_by
  · simp only [List.length_cons, List.length_drop]
    omega
  · simp

/-- `decodeHtmlEntities` (html-utils): eight sequential global replaces,
in source order. -/
def decodeHtmlEntities (cs : List Char) : List Char :=
  replaceAll '&' "#x2F;".toList "/".toList
    (replaceAll '&' "#x27;".toList "'".toList
      (replaceAll '&' "apos;".toList "'".toList
        (replaceAll '&' "#39;".toList "'".toList
          (replaceAll '&' "quot;".toList "\"".toList
            (replaceAll '&' "gt;".toList ">".toList
              (replaceAll '&' "lt;".toList "<".toList
                (replaceAll '&' "amp;".toList "&".toList cs)))))))

/-- Variant A of the meta-tag extraction regexes after `<meta`:
`[^>]*ATTR["']VALUE["'][^>]*content=["']([\s\S]*?)["']`, returning the
lazy capture (text before the first quote after `content=`). -/
def metaContentAfterA (attrEq valueLit : List Char) (cs : List Char) :
    Option (List Char) :=
  firstSome (fun r₁ =>
      match expectQuote r₁ with
      | none => none
      | some r₂ =>
        match ciPrefix valueLit r₂ with
        | none => none
        | some r₃ =>
          match expectQuote r₃ with
          | none => none
          | some r₄ =>
            firstSome (fun r₅ =>
                match expectQuote r₅ with
                | none => none
                | some r₆ =>
                  match splitsAtQuotes r₆ with
                  | split :: _ => some split.1
                  | [] => none)
              ((candidatesNoGt "content=".toList r₄).reverse))
    ((candidatesNoGt attrEq cs).reverse)

/-- Variant B (content first):
`[^>]*content=["']([\s\S]*?)["'][^>]*ATTR["']VALUE["']`. -/
def metaContentAfterB (attrEq valueLit : List Char) (cs : List Char) :
    Option (List Char) :=
  firstSome (fun r₁ =>
      match expectQuote r₁ with
      | none => none
      | some r₂ =>
        firstSome (fun (split : List Char × List Char) =>
            firstSome (fun r₄ =>
                match expectQuote r₄ with
                | none => none
                | some r₅ =>
                  match ciPrefix valueLit r₅ with
                  | none => none
                  | some r₆ =>
                    match expectQuote r₆ with
                    | none => none
                    | some _ => some split.1)
              ((candidatesNoGt attrEq split.2).reverse))
          (splitsAtQuotes r₂))
    ((candidatesNoGt "content=".toList cs).reverse)

/-- `match(A) || match(B)` of the meta-content extractors. -/
def extractMetaCapture (attrEq valueLit : List Char) (html : List Char) :
    Option (List Char) :=
  match scanMeta (metaContentAfterA attrEq valueLit) html with
  | some cap => some cap
  | none => scanMeta (metaContentAfterB attrEq valueLit) html

/-- `extractMetaDescription` (html-utils): the captured content, trimmed
then entity-decoded. -/
def extractMetaDescription (html : String) : Option String :=
  (extractMetaCapture "name=".toList "description".toList html.toList).map
    (fun cap => String.mk (decodeHtmlEntities (trimChars cap)))

/-- `extractOgDescription` (html-utils). -/
def extractOgDescription (html : String) : Option String :=
  (extractMetaCapture "property=".toList "og:description".toList html.toList).map
    (fun cap => String.mk (decodeHtmlEntities (trimChars cap)))

/-- Removal of whole `<TAG ...>...</TAG>` blocks (`<script>`/`<style>`
stripping in `stripHtml`). -/
def removeBlocksCi (o : Char) (os closeTag : List Char) : List Char → List Char
  | [] => []
  | c :: rest =>
    match hm : tryBlock o os closeTag (c :: rest) with
    | some after => removeBlocksCi o os closeTag after
    | none => c :: removeBlocksCi o os closeTag rest
termination_by cs => cs.length
decreasing_by
  · exact tryBlock_length o os closeTag _ _ hm
  · simp

/-- `/<[^>]+>/g` removal: a `<`, at least one non-`>` character, then `>`. -/
def stripTags : List Char → List Char
  | [] => []
  | c :: rest =>
    if c = '<' then
      match hm : splitAtGtL rest with
      | some p => if p.1.isEmpty then c :: stripTags rest else stripTags p.2
      | none => c :: stripTags rest
    else c :: stripTags rest
termination_by cs => cs.length
decreasing_by
  all_goals first
    | (have hlen2 := splitAtGtL_length rest p.1 p.2 (by cases p; exact hm)
       simp only [List.length_cons]
       omega)
    | simp

/-- `(l.dropWhile p).length ≤ l.length`. -/
theorem dropWhile_length_le (p : Char → Bool) :
    ∀ l : List Char, (l.dropWhile p).length ≤ l.length := by
  intro l
  induction l with
  | nil => exact Nat.le_refl _
  | cons c rest ih =>
    unfold List.dropWhile
    by_cases hc : p c = true
    · rw [hc]
      exact Nat.le_succ_of_le ih
    · rw [Bool.eq_false_iff.mpr hc]

/-- `/\s+/g → " "`: collapse whitespace runs to single spaces. -/
def collapseWs : List Char → List Char
  | [] => []
  | c :: rest =>
    if jsWsChar c then ' ' :: collapseWs (rest.dropWhile jsWsChar)
    else c :: collapseWs rest
termination_by cs => cs.length
decreasing_by
  · have := dropWhile_length_le jsWsChar rest
    simp only [List.length_cons]
    omega
  · simp

/-- `stripHtml` (html-utils): drop script and style blocks, remove
remaining tags, replace `&nbsp;`, collapse whitespace, trim. -/
def stripHtml (cs : List Char) : List Char :=
  trimChars (collapseWs (replaceAll '&' "nbsp;".toList " ".toList
    (stripTags (removeBlocksCi '<' "style".toList "</style>".toList
      (removeBlocksCi '<' "script".toList "</script>".toList cs)))))

/-- All full matches of `/<p[^>]*>([\s\S]*?)<\/p>/gi` (the matched spans
including tags, as `html.match` returns with `/g`). -/
def collectPBlocks : List Char → List (List Char)
  | [] => []
  | c :: rest =>
    match hm : tryBlock '<' "p".toList "</p>".toList (c :: rest) with
    | some after =>
      ((c :: rest).take ((c :: rest).length - after.length)) :: collectPBlocks after
    | none => collectPBlocks rest
termination_by cs => cs.length
decreasing_by
  · exact tryBlock_length _ _ _ _ _ hm
  · simp

/-- `extractFirstParagraph` (html-utils): the first paragraph whose
stripped text has at least 50 characters, truncated to 300. -/
def extractFirstParagraph (html : String) : Option String :=
  firstSome (fun p =>
      if 50 ≤ (trimChars (stripHtml p)).length then
        some (String.mk ((trimChars (stripHtml p)).take 300))
      else none)
    (collectPBlocks html.toList)

/-! ## Summary generator (src/geo/summary-generator.ts) -/

/-- `source` field of `ExtractedSummary`. -/
inductive SummarySource
  | metaDescription
  | ogDescription
  | firstParagraph
  | custom
deriving DecidableEq

/-- `ExtractedSummary` from src/types/geo.types.ts. -/
structure ExtractedSummary where
  text : String
  source : SummarySource
deriving DecidableEq

/-- Fourth tier of `extractSummary`: the first paragraph (the JS truthy
check makes an empty string fail). -/
def summaryFromPara (html : String) : Option ExtractedSummary :=
  match extractFirstParagraph html with
  | some p => if p = "" then none else some ⟨p, .firstParagraph⟩
  | none => none

/-- Third tier: `og:description`, truthy and at least 30 characters. -/
def summaryFromOg (html : String) : Option ExtractedSummary :=
  match extractOgDescription html with
  | some d =>
    if !(d == "") && decide (30 ≤ d.length) then some ⟨d, .ogDescription⟩
    else summaryFromPara html
  | none => summaryFromPara html

/-- Second tier: the meta description, truthy and at least 30 characters. -/
def summaryFromHtml (html : String) : Option ExtractedSummary :=
  match extractMetaDescription html with
  | some d =>
    if !(d == "") && decide (30 ≤ d.length) then some ⟨d, .metaDescription⟩
    else summaryFromOg html
  | none => summaryFromOg html

/-- `extractSummary` (summary-generator): the rule-supplied summary is
used when truthy (nonempty); otherwise the HTML tiers run. -/
def extractSummary (html : String) (matchingRule : Option GeoPageRule) :
    Option ExtractedSummary :=
  match matchingRule.bind (fun r => r.summary) with
  | some s => if s = "" then summaryFromHtml html else some ⟨s, .custom⟩
  | none => summaryFromHtml html

/-- C6 counterexample: the claim says a rule-supplied summary is returned
unconditionally whenever the rule supplies one, with no minimum length.
An empty-string summary is falsy in JavaScript, so it is skipped: with no
HTML signals the result is `none`, not the supplied empty summary. -/
theorem extractSummary_counterexample :
    extractSummary "" (some { urlPattern := "/x", summary := some "" }) = none := by
  simp [extractSummary, summaryFromHtml, summaryFromOg, summaryFromPara,
    extractMetaDescription, extractOgDescription, extractMetaCapture, scanMeta,
    extractFirstParagraph, collectPBlocks, firstSome]

/-- C6 amended: `extractSummary` returns the rule-supplied literal summary
whenever the rule supplies a **nonempty** one (no minimum length);
otherwise the meta description exactly when it is nonempty with length at
least 30; otherwise `og:description` under the same gate; otherwise the
first extracted paragraph (whenever nonempty, with no further length
gate); and `none` when no signal qualifies. -/
theorem extractSummary_priority (html : String) (rule : Option GeoPageRule) :
    (∀ s, rule.bind (fun r => r.summary) = some s → s ≠ "" →
      extractSummary html rule = some ⟨s, .custom⟩)
    ∧ (rule.bind (fun r => r.summary) = none →
        extractSummary html rule = summaryFromHtml html)
    ∧ (rule.bind (fun r => r.summary) = some "" →
        extractSummary html rule = summaryFromHtml html)
    ∧ (∀ d, extractMetaDescription html = some d → d ≠ "" → 30 ≤ d.length →
        summaryFromHtml html = some ⟨d, .metaDescription⟩)
    ∧ ((∀ d, extractMetaDescription html = some d → d = "" ∨ d.length < 30) →
        summaryFromHtml html = summaryFromOg html)
    ∧ (∀ d, extractOgDescription html = some d → d ≠ "" → 30 ≤ d.length →
        summaryFromOg html = some ⟨d, .ogDescription⟩)
    ∧ ((∀ d, extractOgDescription html = some d → d = "" ∨ d.length < 30) →
        summaryFromOg html = summaryFromPara html)
    ∧ (∀ p, extractFirstParagraph html = some p → p ≠ "" →
        summaryFromPara html = some ⟨p, .firstParagraph⟩)
    ∧ (extractFirstParagraph html = none → summaryFromPara html = none) := by
  refine ⟨?_, ?_, ?_, ?_, ?_, ?_, ?_, ?_, ?_⟩
  · intro s hs hne
    unfold extractSummary
    rw [hs]
    simp [hne]
  · intro h0
    unfold extractSummary
    rw [h0]
  · intro h0
    unfold extractSummary
    rw [h0]
    simp
  · intro d hd hne hlen
    unfold summaryFromHtml
    rw [hd]
    simp [hne, hlen]
  · intro hall
    unfold summaryFromHtml
    cases hd : extractMetaDescription html with
    | none => rfl
    | some d =>
      rcases hall d hd with h1 | h1
      · simp [h1]
      · have hl : (decide (30 ≤ d.length)) = false := by
          simp only [decide_eq_false_iff_not]
          omega
        simp [hl]
  · intro d hd hne hlen
    unfold summaryFromOg
    rw [hd]
    simp [hne, hlen]
  · intro hall
    unfold summaryFromOg
    cases hd : extractOgDescription html with
    | none => rfl
    | some d =>
      rcases hall d hd with h1 | h1
      · simp [h1]
      · have hl : (decide (30 ≤ d.length)) = false := by
          simp only [decide_eq_false_iff_not]
          omega
        simp [hl]
  · intro p hp hne
    unfold summaryFromPara
    rw [hp]
    simp [hne]
  · intro hp
    unfold summaryFromPara
    rw [hp]

/-- Witness for the amended C6: a nonempty rule summary is returned
verbatim. -/
theorem extractSummary_priority_witness :
    extractSummary "" (some { urlPattern := "/x", summary := some "hi" })
      = some ⟨"hi", .custom⟩ :=
  (extractSummary_priority "" (some { urlPattern := "/x", summary := some "hi" })).1
    "hi" rfl (by decide)

/-! ## GEO text pipeline (`applyTextGeo`, geo engine source file)

`applyTextGeo` is embedded with `generateSchema`
(src/geo/schema-generator.ts) abstracted as a function parameter returning
the optional `@type` string used in the frontmatter — the properties
proved about `applyTextGeo` hold for **every** behaviour of that function
(the real one always returns a schema). -/

/-- Serialization of `PageType` (the union string values). -/
def pageTypeStr : PageType → String
  | .product => "product"
  | .article => "article"
  | .docs => "docs"
  | .faq => "faq"
  | .howTo => "how-to"
  | .pricing => "pricing"
  | .comparison => "comparison"
  | .generic => "generic"

/-- Lower-casing of a header name (ASCII, structural). -/
def strLower (s : String) : String := String.mk (lowerChars s.toList)

/-- `Headers.set`: update the entry with the (lower-cased) name in place,
otherwise append. -/
def headersSet (hs : List (String × String)) (k v : String) : List (String × String) :=
  if hs.any (fun p => p.1 == strLower k) then
    hs.map (fun p => if p.1 == strLower k then (strLower k, v) else p)
  else hs ++ [(strLower k, v)]

/-- `Headers.get` (names stored lower-cased). -/
def headersGet (hs : List (String × String)) (k : String) : Option String :=
  (hs.find? (fun p => p.1 == strLower k)).map Prod.snd

/-- The `frontmatterLines` built by `applyTextGeo`: the summary line when
summary injection is enabled and the rule supplies a truthy one, the
page-type line unconditionally, the schema line when JSON-LD injection is
enabled and a schema is generated. -/
def textFrontmatterLines (schemaGen : PageType → Option GeoPageRule → Option String)
    (url : Url) (config : GeoSection) : List String :=
  (if config.injectSummary then
    match (findMatchingRule url.pathname config.rules).bind (fun r => r.summary) with
    | some s => if s = "" then [] else ["botmon:summary: \"" ++ s ++ "\""]
    | none => []
  else [])
  ++ ["botmon:page_type: "
      ++ pageTypeStr (detectPageType url.pathname "" config.rules).pageType]
  ++ (if config.injectJsonLd then
      match schemaGen (detectPageType url.pathname "" config.rules).pageType
          (findMatchingRule url.pathname config.rules) with
      | some ty => ["botmon:schema: " ++ ty]
      | none => []
    else [])

/-- `applyTextGeo` (geo engine): for text/plain and text/markdown
responses — if the matching rule disables the path, return the re-wrapped
body unmodified; otherwise detect the page type from the URL alone
(`detectPageType(pathname, "", rules)`), prepend the `---`-delimited
frontmatter block (unless it is empty, which `textFrontmatterLines` shows
cannot happen), and set the `X-BotMon-GEO` / `X-BotMon-PageType`
headers. -/
def applyTextGeo (schemaGen : PageType → Option GeoPageRule → Option String)
    (response : Response) (url : Url) (config : GeoSection) : GeoResult :=
  if ((findMatchingRule url.pathname config.rules).bind
      (fun r => r.disabled)).getD false then
    ⟨false, ⟨response.status, response.headers, response.body⟩, none⟩
  else
    if (textFrontmatterLines schemaGen url config).length = 0 then ⟨false, response, none⟩
    else
      ⟨true,
       ⟨response.status,
        headersSet (headersSet response.headers "X-BotMon-GEO" "applied")
          "X-BotMon-PageType"
          (pageTypeStr (detectPageType url.pathname "" config.rules).pageType),
        ("---\n"
          ++ String.intercalate "\n" (textFrontmatterLines schemaGen url config)
          ++ "\n---\n\n") ++ response.body⟩,
       some (detectPageType url.pathname "" config.rules).pageType⟩

/-- `headersSet` then `headersGet` at the same name. -/
theorem headersGet_set_self (hs : List (String × String)) (k v : String) :
    headersGet (headersSet hs k v) k = some v := by
  unfold headersGet headersSet
  by_cases hany : hs.any (fun p => p.1 == strLower k) = true
  · rw [if_pos hany]
    induction hs with
    | nil => simp at hany
    | cons x xs ih =>
      rw [List.map_cons, List.find?_cons]
      by_cases hx : (x.1 == strLower k) = true
      · simp [hx]
      · have hx' : ((x.1 : String) == strLower k) = false := by simpa using hx
        rw [if_neg (by simp [hx'])]
        simp only [hx', cond_false]
        apply ih
        rcases List.any_eq_true.mp hany with ⟨p, hp, hpk⟩
        rcases List.mem_cons.mp hp with hp1 | hp1
        · exact absurd (hp1 ▸ hpk) (by simp [hx'])
        · exact List.any_eq_true.mpr ⟨p, hp1, hpk⟩
  · rw [if_neg hany]
    rw [List.find?_append]
    have hnone : hs.find? (fun p => p.1 == strLower k) = none := by
      rw [List.find?_eq_none]
      intro p hp
      exact fun hpk => hany (List.any_eq_true.mpr ⟨p, hp, hpk⟩)
    rw [hnone]
    simp [List.find?]

/-- Setting one header name leaves lookups of another name unchanged. -/
theorem headersGet_set_ne (hs : List (String × String)) (k k' v' : String)
    (hne : strLower k ≠ strLower k') :
    headersGet (headersSet hs k' v') k = headersGet hs k := by
  unfold headersGet headersSet
  by_cases hany : hs.any (fun p => p.1 == strLower k') = true
  · rw [if_pos hany]
    induction hs with
    | nil => rfl
    | cons x xs ih =>
      rw [List.map_cons, List.find?_cons, List.find?_cons]
      by_cases hx : (x.1 == strLower k') = true
      · rw [if_pos hx]
        have hx1 : x.1 = strLower k' := beq_iff_eq.mp hx
        have hxk : ((x.1 : String) == strLower k) = false := by
          simp only [beq_eq_false_iff_ne, ne_eq, hx1]
          exact fun h => hne h.symm
        have hnk : ((strLower k' : String) == strLower k) = false := by
          simp only [beq_eq_false_iff_ne, ne_eq]
          exact fun h => hne h.symm
        simp only [hxk, hnk, cond_false]
        by_cases hrest : xs.any (fun p => p.1 == strLower k') = true
        · exact ih hrest
        · have hmapid : xs.map (fun p => if p.1 == strLower k' then (strLower k', v') else p)
              = xs.map id := by
            apply List.map_congr_left
            intro p hp
            have hf : ((p.1 : String) == strLower k') = false := by
              rcases hpk : (p.1 : String) == strLower k' with _ | _
              · rfl
              · exact absurd (List.any_eq_true.mpr ⟨p, hp, hpk⟩) hrest
            simp [hf]
          rw [hmapid, List.map_id]
      · rw [if_neg (by simp [hx])]
        cases hxk : (x.1 : String) == strLower k with
        | true => simp [hxk]
        | false =>
          simp only [hxk, cond_false]
          apply ih
          rcases List.any_eq_true.mp hany with ⟨p, hp, hpk⟩
          rcases List.mem_cons.mp hp with hp1 | hp1
          · exact absurd (hp1 ▸ hpk) (by simp [hx])
          · exact List.any_eq_true.mpr ⟨p, hp1, hpk⟩
  · rw [if_neg hany]
    rw [List.find?_append]
    cases hf : hs.find? (fun p => p.1 == strLower k) with
    | some p => rfl
    | none =>
      have hnk : ((strLower k' : String) == strLower k) = false := by
        simp only [beq_eq_false_iff_ne, ne_eq]
        exact fun h => hne h.symm
      simp [List.find?, hnk]

/-- C10: for every text response processed by the GEO text pipeline whose
path is not disabled by a matching rule, and for **every** behaviour of
the schema generator, `applyTextGeo` reports `modified = true`, prepends a
`---`-delimited frontmatter block that contains at least the
`botmon:page_type` line, and sets the `X-BotMon-GEO` and
`X-BotMon-PageType` headers — even when `injectSummary` and
`injectJsonLd` are both false; in particular the empty-frontmatter early
return is unreachable. -/
theorem applyTextGeo_always_marks
    (schemaGen : PageType → Option GeoPageRule → Option String)
    (response : Response) (url : Url) (config : GeoSection)
    (hnd : (findMatchingRule url.pathname config.rules).bind (fun r => r.disabled)
      ≠ some true) :
    (applyTextGeo schemaGen response url config).modified = true
    ∧ (∃ ls : List String,
        (applyTextGeo schemaGen response url config).response.body
          = "---\n" ++ String.intercalate "\n" ls ++ "\n---\n\n" ++ response.body
        ∧ ("botmon:page_type: "
            ++ pageTypeStr (detectPageType url.pathname "" config.rules).pageType) ∈ ls)
    ∧ headersGet (applyTextGeo schemaGen response url config).response.headers
        "X-BotMon-GEO" = some "applied"
    ∧ headersGet (applyTextGeo schemaGen response url config).response.headers
        "X-BotMon-PageType"
        = some (pageTypeStr (detectPageType url.pathname "" config.rules).pageType)
    ∧ (applyTextGeo schemaGen response url config).pageType
        = some (detectPageType url.pathname "" config.rules).pageType := by
  have hdis : ((findMatchingRule url.pathname config.rules).bind
      (fun r => r.disabled)).getD false = false := by
    cases hb : (findMatchingRule url.pathname config.rules).bind (fun r => r.disabled) with
    | none => rfl
    | some b =>
      cases b with
      | true => exact absurd hb hnd
      | false => rfl
  have hne : strLower "X-BotMon-GEO" ≠ strLower "X-BotMon-PageType" := by decide
  have hlen : ¬ (textFrontmatterLines schemaGen url config).length = 0 := by
    unfold textFrontmatterLines
    simp
  unfold applyTextGeo
  rw [hdis]
  simp only [Bool.false_eq_true, if_false]
  rw [if_neg hlen]
  refine ⟨rfl, ⟨textFrontmatterLines schemaGen url config, rfl, ?_⟩, ?_, ?_, rfl⟩
  · unfold textFrontmatterLines
    exact List.mem_append_left _ (List.mem_append_right _ (List.mem_cons_self _ _))
  · rw [headersGet_set_ne _ _ _ _ hne, headersGet_set_self]
  · rw [headersGet_set_self]

/-- Witness for C10: a plain-text response on an unconfigured path, with
both injections off and a schema generator that never produces anything,
is still marked and prefixed. -/
theorem applyTextGeo_always_marks_witness :
    (applyTextGeo (fun _ _ => none) ⟨200, [], "hello"⟩ ⟨"/t"⟩
        ⟨true, false, false, false, []⟩).modified = true := by
  have h := applyTextGeo_always_marks (fun _ _ => none) ⟨200, [], "hello"⟩ ⟨"/t"⟩
    ⟨true, false, false, false, []⟩ (by simp [findMatchingRule, List.find?])
  exact h.1

/-! ## Heading enricher (heading-enricher source file)

`enrichHeadings` is one global regex replace over
`/<h([1-6])([^>]*)>([\s\S]*?)<\/h\1>/gi`.  The embedding scans left to
right; at each position a match attempt (`tryHeading`) either consumes a
whole heading (opening tag `<h` + level digit + `[^>]*` attributes + `>`,
lazy content up to the first matching `</h<level>>` closer, `h`
case-insensitive throughout) or the character is copied.  A matched
heading whose attributes already contain `data-botmon-section` is emitted
verbatim; otherwise the three data attributes are inserted before the
closing `>` of the opening tag (and the regex replacement template
lower-cases the literal `h` of both tags).  The running `sectionIndex`
increments on every match, skipped or not, as in the source. -/

/-- The `h` of a heading tag under the `/i` flag. -/
def isH (c : Char) : Bool := c = 'h' || c = 'H'

/-- A heading level digit `[1-6]`. -/
def isLevel (c : Char) : Bool := '1' ≤ c && c ≤ '6'

/-- Does the list start with the 5-character closer `</h<d>>` (with a
case-insensitive `h`)?  Returns the closer's `h` character and the rest. -/
def isCloserAt (d : Char) (cs : List Char) : Option (Char × List Char) :=
  match cs with
  | c1 :: c2 :: c3 :: c4 :: c5 :: rest =>
    if c1 = '<' ∧ c2 = '/' ∧ isH c3 = true ∧ c4 = d ∧ c5 = '>' then some (c3, rest)
    else none
  | _ => none

/-- Lazy `[\s\S]*?` up to the first closer for level `d`: returns
(content, closer's h, rest after the closer). -/
def splitAtCloser (d : Char) : List Char → Option (List Char × Char × List Char)
  | [] => none
  | c :: rest =>
    match isCloserAt d (c :: rest) with
    | some p => some ([], p.1, p.2)
    | none => (splitAtCloser d rest).map (fun p => (c :: p.1, p.2.1, p.2.2))

/-- One match attempt of the heading regex at the current position:
returns (opening h, level, attributes, content, closing h, rest). -/
def tryHeading : List Char → Option (Char × Char × List Char × List Char × Char × List Char)
  | c0 :: c1 :: c2 :: rest =>
    if c0 = '<' ∧ isH c1 = true ∧ isLevel c2 = true then
      match splitAtGtL rest with
      | none => none
      | some p =>
        match splitAtCloser c2 p.2 with
        | none => none
        | some q => some (c1, c2, p.1, q.1, q.2.1, q.2.2)
    else none
  | _ => none

/-- Case-sensitive substring test (`String.prototype.includes`). -/
def hasInfix (pat : List Char) : List Char → Bool
  | [] => pat.isEmpty
  | c :: rest => pat.isPrefixOf (c :: rest) || hasInfix pat rest

/-- The duplicate-attribute guard literal. -/
def markerLit : List Char := "data-botmon-section".toList

/-- `attrs.includes("data-botmon-section")`. -/
def hasMarker (attrs : List Char) : Bool := hasInfix markerLit attrs

/-- Decimal digits of a positive section index (`${sectionIndex}`). -/
def natStr (n : Nat) : List Char :=
  if n < 10 then [Char.ofNat ('0'.toNat + n)]
  else natStr (n / 10) ++ [Char.ofNat ('0'.toNat + n % 10)]
termination_by n
decreasing_by
  rename_i hn
  omega

/-- The inserted attribute text
`" data-botmon-section=\"N\" data-botmon-level=\"D\"
data-botmon-page-type=\"PT\""`. -/
def markerChars (n : Nat) (d : Char) (pt : List Char) : List Char :=
  " data-botmon-section=\"".toList ++ natStr n
    ++ "\" data-botmon-level=\"".toList ++ [d]
    ++ "\" data-botmon-page-type=\"".toList ++ pt ++ ['\"']

/-- A level digit is none of the structural characters of a heading. -/
theorem isLevel_spec (c : Char) (h : isLevel c = true) :
    c ≠ '<' ∧ c ≠ '>' ∧ c ≠ '/' ∧ c ≠ ' ' ∧ isH c = false := by
  refine ⟨?_, ?_, ?_, ?_, ?_⟩
  · intro hc; subst hc; exact absurd h (by decide)
  · intro hc; subst hc; exact absurd h (by decide)
  · intro hc; subst hc; exact absurd h (by decide)
  · intro hc; subst hc; exact absurd h (by decide)
  · cases hih : isH c with
    | false => rfl
    | true =>
      have : c = 'h' ∨ c = 'H' := by simpa [isH] using hih
      rcases this with rfl | rfl <;> exact absurd h (by decide)

/-- A heading `h` character is none of the other structural characters. -/
theorem isH_spec (c : Char) (h : isH c = true) :
    c ≠ '<' ∧ c ≠ '>' ∧ c ≠ '/' ∧ c ≠ ' ' ∧ isLevel c = false := by
  have : c = 'h' ∨ c = 'H' := by simpa [isH] using h
  rcases this with rfl | rfl <;> exact ⟨by decide, by decide, by decide, by decide, by decide⟩

/-- Inversion for `splitAtGtL`: the input decomposes at its first `>`. -/
theorem splitAtGtL_eq_some (cs : List Char) :
    ∀ a b, splitAtGtL cs = some (a, b) → cs = a ++ '>' :: b ∧ '>' ∉ a := by
  induction cs with
  | nil => intro a b h; simp [splitAtGtL] at h
  | cons c rest ih =>
    intro a b h
    simp only [splitAtGtL] at h
    by_cases hc : c = '>'
    · subst hc
      rw [if_pos rfl] at h
      injection h with h
      obtain ⟨rfl, rfl⟩ := Prod.mk.injEq .. ▸ h
      exact ⟨rfl, by simp⟩
    · rw [if_neg hc] at h
      cases hr : splitAtGtL rest with
      | none => rw [hr] at h; exact absurd h (by simp)
      | some p =>
        rw [hr] at h
        injection h with h
        obtain ⟨rfl, rfl⟩ := Prod.mk.injEq .. ▸ h
        obtain ⟨hrest, hnot⟩ := ih p.1 p.2 (by rw [hr])
        refine ⟨by rw [hrest]; rfl, ?_⟩
        intro hmem
        rcases List.mem_cons.mp hmem with he | he
        · exact hc he.symm
        · exact hnot he

/-- Reconstruction for `splitAtGtL`. -/
theorem splitAtGtL_append (a b : List Char) (ha : '>' ∉ a) :
    splitAtGtL (a ++ '>' :: b) = some (a, b) := by
  induction a with
  | nil => simp [splitAtGtL]
  | cons c a' ih =>
    have hc : ¬ (c = '>') := fun h => ha (by rw [h]; exact List.mem_cons_self _ _)
    rw [List.cons_append]
    simp only [splitAtGtL]
    rw [if_neg hc, ih (fun h => ha (List.mem_cons_of_mem _ h))]
    rfl

/-- Inversion for `isCloserAt`. -/
theorem isCloserAt_eq_some (d : Char) (cs : List Char) (h2 : Char) (rest : List Char)
    (h : isCloserAt d cs = some (h2, rest)) :
    cs = '<' :: '/' :: h2 :: d :: '>' :: rest ∧ isH h2 = true := by
  match cs with
  | [] => simp [isCloserAt] at h
  | [a] => simp [isCloserAt] at h
  | [a, b] => simp [isCloserAt] at h
  | [a, b, c] => simp [isCloserAt] at h
  | [a, b, c, e] => simp [isCloserAt] at h
  | c1 :: c2 :: c3 :: c4 :: c5 :: r =>
    simp only [isCloserAt] at h
    split at h
    · rename_i hcond
      obtain ⟨hc1, hc2, hc3, hc4, hc5⟩ := hcond
      injection h with h
      obtain ⟨rfl, rfl⟩ := Prod.mk.injEq .. ▸ h
      subst hc1; subst hc2; subst hc4; subst hc5
      exact ⟨rfl, hc3⟩
    · exact absurd h (by simp)

/-- A closer never starts with a character other than `<`. -/
theorem isCloserAt_not_lt (d c : Char) (l : List Char) (hc : c ≠ '<') :
    isCloserAt d (c :: l) = none := by
  rcases l with _ | ⟨a, _ | ⟨b, _ | ⟨e, _ | ⟨f, r⟩⟩⟩⟩ <;> simp [isCloserAt, hc]

/-- A closer never has a second character other than `/`. -/
theorem isCloserAt_not_slash (d c1 c2 : Char) (l : List Char) (hc : c2 ≠ '/') :
    isCloserAt d (c1 :: c2 :: l) = none := by
  rcases l with _ | ⟨a, _ | ⟨b, _ | ⟨e, r⟩⟩⟩ <;> simp [isCloserAt, hc]

/-- A closer never has a third character that is not an `h`. -/
theorem isCloserAt_not_h (d c1 c2 c3 : Char) (l : List Char) (hc : isH c3 = false) :
    isCloserAt d (c1 :: c2 :: c3 :: l) = none := by
  rcases l with _ | ⟨a, _ | ⟨b, r⟩⟩ <;> simp [isCloserAt, hc]

/-- A closer for level `d` never has a fourth character other than `d`. -/
theorem isCloserAt_not_level (d c1 c2 c3 c4 : Char) (l : List Char) (hc : c4 ≠ d) :
    isCloserAt d (c1 :: c2 :: c3 :: c4 :: l) = none := by
  rcases l with _ | ⟨a, r⟩ <;> simp [isCloserAt, hc]

/-- A closer never has a fifth character other than `>`. -/
theorem isCloserAt_not_gt (d c1 c2 c3 c4 c5 : Char) (l : List Char) (hc : c5 ≠ '>') :
    isCloserAt d (c1 :: c2 :: c3 :: c4 :: c5 :: l) = none := by
  simp [isCloserAt, hc]

/-- A closer test that fails on an extended list also fails on the prefix. -/
theorem isCloserAt_append_none (d : Char) (xs ys : List Char)
    (h : isCloserAt d (xs ++ ys) = none) : isCloserAt d xs = none := by
  match xs with
  | [] => rfl
  | [a] => rfl
  | [a, b] => rfl
  | [a, b, c] => rfl
  | [a, b, c, e] => rfl
  | c1 :: c2 :: c3 :: c4 :: c5 :: r =>
    simp only [List.cons_append, isCloserAt] at h ⊢
    split at h
    · exact absurd h (by simp)
    · rename_i hcond
      rw [if_neg hcond]

/-- Does a closer for level `d` occur anywhere (as a contiguous block)? -/
def hasCloserSub (d : Char) : List Char → Bool
  | [] => false
  | c :: rest => (isCloserAt d (c :: rest)).isSome || hasCloserSub d rest

/-- A closer-free list stays closer-free when truncated on the left. -/
theorem hasCloserSub_append_right (d : Char) (xs ys : List Char)
    (h : hasCloserSub d (xs ++ ys) = false) : hasCloserSub d ys = false := by
  induction xs with
  | nil => exact h
  | cons c xs' ih =>
    rw [List.cons_append] at h
    simp only [hasCloserSub, Bool.or_eq_false_iff] at h
    exact ih h.2

/-- Inversion for `splitAtCloser`: the input decomposes at the first closer,
and the content before it is closer-free. -/
theorem splitAtCloser_eq_some (d : Char) (cs : List Char) :
    ∀ content h2 after, splitAtCloser d cs = some (content, h2, after) →
      cs = content ++ '<' :: '/' :: h2 :: d :: '>' :: after ∧ isH h2 = true
        ∧ hasCloserSub d content = false := by
  induction cs with
  | nil => intro content h2 after h; simp [splitAtCloser] at h
  | cons c rest ih =>
    intro content h2 after h
    simp only [splitAtCloser] at h
    cases hic : isCloserAt d (c :: rest) with
    | some p =>
      rw [hic] at h
      injection h with h
      obtain ⟨rfl, rfl, rfl⟩ := Prod.mk.injEq .. ▸ h
      obtain ⟨hdec, hh⟩ := isCloserAt_eq_some d (c :: rest) p.1 p.2 (by rw [hic])
      exact ⟨by rw [hdec]; rfl, hh, rfl⟩
    | none =>
      rw [hic] at h
      cases hr : splitAtCloser d rest with
      | none => rw [hr] at h; exact absurd h (by simp)
      | some q =>
        rw [hr] at h
        injection h with h
        obtain ⟨rfl, rfl, rfl⟩ := Prod.mk.injEq .. ▸ h
        obtain ⟨hdec, hh, hncs⟩ := ih q.1 q.2.1 q.2.2 (by rw [hr])
        refine ⟨by rw [List.cons_append, hdec], hh, ?_⟩
        simp only [hasCloserSub, Bool.or_eq_false_iff]
        refine ⟨?_, hncs⟩
        have hext : isCloserAt d ((c :: q.1) ++ ('<' :: '/' :: q.2.1 :: d :: '>' :: q.2.2)) = none := by
          rw [List.cons_append, ← hdec]
          exact hic
        rw [isCloserAt_append_none d (c :: q.1) _ hext]
        rfl

/-- The heading content may be followed by any suffix that starts with `<`
without creating a closer at a position where none existed. -/
theorem isCloserAt_cons_append (d c : Char) (hd : isLevel d = true)
    (content T : List Char)
    (hno : isCloserAt d (c :: content) = none) :
    isCloserAt d (c :: (content ++ '<' :: T)) = none := by
  obtain ⟨hlt, hgt, hsl, hsp, hnh⟩ := isLevel_spec d hd
  match content with
  | [] => exact isCloserAt_not_slash d c '<' T (by decide)
  | [a] => exact isCloserAt_not_h d c a '<' T (by decide)
  | [a, b] => exact isCloserAt_not_level d c a b '<' T (fun h => hlt h.symm)
  | [a, b, e] => exact isCloserAt_not_gt d c a b e '<' T (by decide)
  | a :: b :: e :: f :: r =>
    simp only [List.cons_append, isCloserAt] at hno ⊢
    split at hno
    · exact absurd hno (by simp)
    · rename_i hcond
      rw [if_neg hcond]

/-- Reconstruction for `splitAtCloser`: a closer-free content followed by a
well-formed closer splits exactly there. -/
theorem splitAtCloser_append (d h : Char) (hd : isLevel d = true) (hh : isH h = true) :
    ∀ (content X : List Char), hasCloserSub d content = false →
      splitAtCloser d (content ++ '<' :: '/' :: h :: d :: '>' :: X) = some (content, h, X) := by
  intro content
  induction content with
  | nil =>
    intro X _
    have hc : isCloserAt d ('<' :: '/' :: h :: d :: '>' :: X) = some (h, X) := by
      simp [isCloserAt, hh]
    rw [List.nil_append]
    simp only [splitAtCloser]
    rw [hc]
  | cons c content' ih =>
    intro X hcs
    simp only [hasCloserSub, Bool.or_eq_false_iff] at hcs
    obtain ⟨hic, hcs'⟩ := hcs
    have hic' : isCloserAt d (c :: content') = none := by
      cases hx : isCloserAt d (c :: content') with
      | none => rfl
      | some p => rw [hx] at hic; exact absurd hic (by simp)
    rw [List.cons_append]
    simp only [splitAtCloser]
    rw [isCloserAt_cons_append d c hd content' ('/' :: h :: d :: '>' :: X) hic']
    rw [ih X hcs']
    rfl

/-- Inversion for `tryHeading`: a successful match decomposes the input into
opening tag, `>`-free attributes, closer-free content, closer and rest. -/
theorem tryHeading_eq_some (cs : List Char) (h1 d : Char) (attrs content : List Char)
    (h2 : Char) (after : List Char)
    (h : tryHeading cs = some (h1, d, attrs, content, h2, after)) :
    cs = '<' :: h1 :: d :: (attrs ++ '>' :: (content ++ '<' :: '/' :: h2 :: d :: '>' :: after))
      ∧ isH h1 = true ∧ isLevel d = true ∧ '>' ∉ attrs ∧ isH h2 = true
      ∧ hasCloserSub d content = false := by
  match cs with
  | [] => simp [tryHeading] at h
  | [a] => simp [tryHeading] at h
  | [a, b] => simp [tryHeading] at h
  | c0 :: c1 :: c2 :: rest =>
    simp only [tryHeading] at h
    split at h
    · rename_i hcond
      obtain ⟨hc0, hc1, hc2⟩ := hcond
      cases hg : splitAtGtL rest with
      | none => rw [hg] at h; exact absurd h (by simp)
      | some p =>
        rw [hg] at h
        have h' : (match splitAtCloser c2 p.2 with
          | none => none
          | some q => some (c1, c2, p.1, q.1, q.2.1, q.2.2))
            = some (h1, d, attrs, content, h2, after) := h
        cases hc : splitAtCloser c2 p.2 with
        | none => rw [hc] at h'; exact absurd h' (by simp)
        | some q =>
          rw [hc] at h'
          injection h' with h'
          obtain ⟨rfl, rfl, rfl, rfl, rfl, rfl⟩ := Prod.mk.injEq .. ▸ h'
          subst hc0
          obtain ⟨hrest, hnogt⟩ := splitAtGtL_eq_some rest p.1 p.2 (by rw [hg])
          obtain ⟨hp2, hh2, hncs⟩ := splitAtCloser_eq_some _ p.2 q.1 q.2.1 q.2.2 (by rw [hc])
          refine ⟨?_, hc1, hc2, hnogt, hh2, hncs⟩
          rw [hrest, hp2]
    · exact absurd h (by simp)

/-- A heading match ends strictly inside the input. -/
theorem tryHeading_length (cs : List Char)
    (h1 d : Char) (attrs content : List Char) (h2 : Char) (after : List Char)
    (h : tryHeading cs = some (h1, d, attrs, content, h2, after)) :
    after.length < cs.length := by
  have hdec := (tryHeading_eq_some cs h1 d attrs content h2 after h).1
  rw [hdec]
  simp [List.length_append]
  omega

/-- Reconstruction for `tryHeading`. -/
theorem tryHeading_build (h1 d : Char) (attrs content : List Char) (h2 : Char) (X : List Char)
    (hh1 : isH h1 = true) (hd : isLevel d = true) (hattrs : '>' ∉ attrs)
    (hh2 : isH h2 = true) (hcontent : hasCloserSub d content = false) :
    tryHeading ('<' :: h1 :: d :: (attrs ++ '>' :: (content ++ '<' :: '/' :: h2 :: d :: '>' :: X)))
      = some (h1, d, attrs, content, h2, X) := by
  simp only [tryHeading]
  rw [if_pos ⟨trivial, hh1, hd⟩]
  rw [splitAtGtL_append attrs _ hattrs]
  show (match splitAtCloser d (content ++ '<' :: '/' :: h2 :: d :: '>' :: X) with
    | none => none
    | some q => some (h1, d, attrs, q.1, q.2.1, q.2.2))
      = some (h1, d, attrs, content, h2, X)
  rw [splitAtCloser_append d h2 hd hh2 content X hcontent]

/-- The left-to-right scan of the global regex replace.  `n` is the running
`sectionIndex`.  A matched heading whose attributes carry the marker is
emitted verbatim; otherwise the tag pair is rebuilt with a lowercase `h`
and the three data attributes appended; a failed match copies one
character.  The index increments on every match, skipped or not. -/
def enrichAux (pt : List Char) : Nat → List Char → List Char
  | _, [] => []
  | n, c :: rest =>
    match hm : tryHeading (c :: rest) with
    | some (h1, d, attrs, content, h2, after) =>
      if hasMarker attrs then
        '<' :: h1 :: d :: (attrs ++ '>' :: (content
          ++ '<' :: '/' :: h2 :: d :: '>' :: enrichAux pt (n + 1) after))
      else
        '<' :: 'h' :: d :: ((attrs ++ markerChars (n + 1) d pt) ++ '>' :: (content
          ++ '<' :: '/' :: 'h' :: d :: '>' :: enrichAux pt (n + 1) after))
    | none => c :: enrichAux pt n rest
termination_by n cs => cs.length
decreasing_by
  · exact tryHeading_length _ _ _ _ _ _ _ hm
  · exact tryHeading_length _ _ _ _ _ _ _ hm
  · simp

/-- `enrichHeadings(html, pageType)` from the heading-enricher source file. -/
def enrichHeadings (html : String) (pageType : PageType) : String :=
  String.mk (enrichAux (pageTypeStr pageType).toList 0 html.toList)

/-- Step equation: no match at this position copies one character. -/
theorem enrichAux_none (pt : List Char) (n : Nat) (c : Char) (rest : List Char)
    (htr : tryHeading (c :: rest) = none) :
    enrichAux pt n (c :: rest) = c :: enrichAux pt n rest := by
  rw [enrichAux]
  split
  · rename_i h1 d attrs content h2 after hm
    rw [htr] at hm
    cases hm
  · rfl

/-- Step equation: a match on an already-marked heading is emitted verbatim. -/
theorem enrichAux_marked (pt : List Char) (n : Nat) (c : Char) (rest : List Char)
    (h1 d : Char) (attrs content : List Char) (h2 : Char) (after : List Char)
    (htr : tryHeading (c :: rest) = some (h1, d, attrs, content, h2, after))
    (hmk : hasMarker attrs = true) :
    enrichAux pt n (c :: rest)
      = '<' :: h1 :: d :: (attrs ++ '>' :: (content
          ++ '<' :: '/' :: h2 :: d :: '>' :: enrichAux pt (n + 1) after)) := by
  rw [enrichAux]
  split
  · rename_i h1' d' attrs' content' h2' after' hm
    rw [htr] at hm
    injection hm with hm
    obtain ⟨rfl, rfl, rfl, rfl, rfl, rfl⟩ := Prod.mk.injEq .. ▸ hm.symm
    rw [if_pos hmk]
  · rename_i hm
    rw [htr] at hm
    cases hm

/-- Step equation: a match on an unmarked heading is rebuilt with a lowercase
`h` and the marker attributes appended. -/
theorem enrichAux_unmarked (pt : List Char) (n : Nat) (c : Char) (rest : List Char)
    (h1 d : Char) (attrs content : List Char) (h2 : Char) (after : List Char)
    (htr : tryHeading (c :: rest) = some (h1, d, attrs, content, h2, after))
    (hmk : hasMarker attrs = false) :
    enrichAux pt n (c :: rest)
      = '<' :: 'h' :: d :: ((attrs ++ markerChars (n + 1) d pt) ++ '>' :: (content
          ++ '<' :: '/' :: 'h' :: d :: '>' :: enrichAux pt (n + 1) after)) := by
  rw [enrichAux]
  split
  · rename_i h1' d' attrs' content' h2' after' hm
    rw [htr] at hm
    injection hm with hm
    obtain ⟨rfl, rfl, rfl, rfl, rfl, rfl⟩ := Prod.mk.injEq .. ▸ hm.symm
    rw [if_neg (by simp [hmk])]
  · rename_i hm
    rw [htr] at hm
    cases hm

/-- A match attempt at a position not holding `<` fails. -/
theorem tryHeading_head_ne (c : Char) (l : List Char) (hc : c ≠ '<') :
    tryHeading (c :: l) = none := by
  cases htr : tryHeading (c :: l) with
  | none => rfl
  | some tup =>
    obtain ⟨h1, d, attrs, content, h2, after⟩ := tup
    have hdec := (tryHeading_eq_some _ _ _ _ _ _ _ htr).1
    injection hdec with h _
    exact absurd h hc

/-- The scan preserves the first character of its input. -/
theorem enrichAux_head (pt : List Char) (n : Nat) (c : Char) (rest : List Char) :
    ∃ t, enrichAux pt n (c :: rest) = c :: t := by
  cases htr : tryHeading (c :: rest) with
  | none => exact ⟨enrichAux pt n rest, enrichAux_none pt n c rest htr⟩
  | some tup =>
    obtain ⟨h1, d, attrs, content, h2, after⟩ := tup
    have hdec := (tryHeading_eq_some _ _ _ _ _ _ _ htr).1
    have hc : c = '<' := by injection hdec
    subst hc
    cases hmk : hasMarker attrs with
    | true => exact ⟨_, enrichAux_marked pt n _ rest _ _ _ _ _ _ htr hmk⟩
    | false => exact ⟨_, enrichAux_unmarked pt n _ rest _ _ _ _ _ _ htr hmk⟩

/-- A `>`-free region is copied unchanged (no heading can match in it). -/
theorem enrichAux_no_gt (pt : List Char) : ∀ (cs : List Char) (n : Nat), '>' ∉ cs →
    enrichAux pt n cs = cs := by
  intro cs
  induction cs with
  | nil => intro n _; simp [enrichAux]
  | cons c rest ih =>
    intro n hng
    have htr : tryHeading (c :: rest) = none := by
      cases htr : tryHeading (c :: rest) with
      | none => rfl
      | some tup =>
        obtain ⟨h1, d, attrs, content, h2, after⟩ := tup
        have hdec := (tryHeading_eq_some _ _ _ _ _ _ _ htr).1
        exact absurd (by rw [hdec]; simp : '>' ∈ c :: rest) hng
    rw [enrichAux_none pt n c rest htr]
    rw [ih n (fun h => hng (List.mem_cons_of_mem _ h))]

/-- `splitAtCloser` fails exactly on closer-free input. -/
theorem splitAtCloser_none_iff (d : Char) : ∀ cs,
    splitAtCloser d cs = none ↔ hasCloserSub d cs = false := by
  intro cs
  induction cs with
  | nil => simp [splitAtCloser, hasCloserSub]
  | cons c rest ih =>
    simp only [splitAtCloser, hasCloserSub]
    cases hic : isCloserAt d (c :: rest) with
    | some p => simp [hic]
    | none => simp [hic, Option.map_eq_none', ih]

/-- `splitAtGtL` fails exactly on `>`-free input. -/
theorem splitAtGtL_none_iff : ∀ cs, splitAtGtL cs = none ↔ '>' ∉ cs := by
  intro cs
  induction cs with
  | nil => simp [splitAtGtL]
  | cons c rest ih =>
    simp only [splitAtGtL]
    by_cases hc : c = '>'
    · subst hc; simp
    · rw [if_neg hc]
      simp only [Option.map_eq_none', ih, List.mem_cons]
      constructor
      · intro h hx
        rcases hx with he | he
        · exact hc he.symm
        · exact h he
      · intro h hx
        exact h (Or.inr hx)

/-- Unfolding a closer-freeness fact one character at a time. -/
theorem hasCloserSub_cons_false_iff (d c : Char) (rest : List Char) :
    hasCloserSub d (c :: rest) = false
      ↔ isCloserAt d (c :: rest) = none ∧ hasCloserSub d rest = false := by
  simp only [hasCloserSub, Bool.or_eq_false_iff]
  constructor
  · rintro ⟨h1, h2⟩
    refine ⟨?_, h2⟩
    cases hx : isCloserAt d (c :: rest) with
    | none => rfl
    | some p => rw [hx] at h1; exact absurd h1 (by simp)
  · rintro ⟨h1, h2⟩
    rw [h1]
    exact ⟨rfl, h2⟩

/-- A cons whose head cannot start a closer contributes nothing. -/
theorem hasCloserSub_cons_ne_lt (d x : Char) (hx : x ≠ '<') (Z : List Char) :
    hasCloserSub d (x :: Z) = hasCloserSub d Z := by
  simp only [hasCloserSub]
  rw [isCloserAt_not_lt d x Z hx]
  simp

/-- Two leading characters `<x` with `x` neither `<` nor `/` contribute
nothing to closer search. -/
theorem hasCloserSub_cons2 (d x : Char) (hx1 : x ≠ '<') (hx2 : x ≠ '/') (Z : List Char) :
    hasCloserSub d ('<' :: x :: Z) = hasCloserSub d Z := by
  simp only [hasCloserSub]
  rw [isCloserAt_not_slash d '<' x Z hx2, isCloserAt_not_lt d x Z hx1]
  simp

/-- Window transfer across a swap point: `>` can be replaced by `>` or a
space (with arbitrary different tails) without creating a closer window
that bridges from the unchanged region. -/
theorem isCloserAt_seg_trans (d c χ : Char) (hd : isLevel d = true)
    (hχ : χ = '>' ∨ χ = ' ')
    (u y y' : List Char)
    (hno : isCloserAt d (c :: (u ++ '>' :: y)) = none) :
    isCloserAt d (c :: (u ++ χ :: y')) = none := by
  obtain ⟨hlt, hgt, hsl, hsp, hnh⟩ := isLevel_spec d hd
  have hχsl : χ ≠ '/' := by rcases hχ with rfl | rfl <;> decide
  have hχh : isH χ = false := by rcases hχ with rfl | rfl <;> decide
  have hχd : χ ≠ d := by
    rcases hχ with rfl | rfl
    · exact fun h => hgt h.symm
    · exact fun h => hsp h.symm
  match u with
  | [] => exact isCloserAt_not_slash d c χ y' hχsl
  | [a] => exact isCloserAt_not_h d c a χ y' hχh
  | [a, b] => exact isCloserAt_not_level d c a b χ y' hχd
  | [a, b, e] =>
    rcases hχ with rfl | rfl
    · simp only [List.cons_append, List.nil_append, isCloserAt] at hno ⊢
      split at hno
      · exact absurd hno (by simp)
      · rename_i hcond
        rw [if_neg hcond]
    · exact isCloserAt_not_gt d c a b e ' ' y' (by decide)
  | a :: b :: e :: f :: r =>
    simp only [List.cons_append, isCloserAt] at hno ⊢
    split at hno
    · exact absurd hno (by simp)
    · rename_i hcond
      rw [if_neg hcond]

/-- A block without `<` cannot contain or start a closer. -/
theorem hasCloserSub_no_lt (d : Char) : ∀ (ms : List Char), (∀ c ∈ ms, c ≠ '<') →
    ∀ tl, hasCloserSub d tl = false → hasCloserSub d (ms ++ tl) = false := by
  intro ms
  induction ms with
  | nil => intro _ tl h; exact h
  | cons c ms' ih =>
    intro hms tl htl
    rw [List.cons_append, hasCloserSub_cons_ne_lt d c (hms c (List.mem_cons_self _ _))]
    exact ih (fun x hx => hms x (List.mem_cons_of_mem _ hx)) tl htl

/-- Closer-freeness survives replacing everything from the first `>` of a
region on, provided the replacement starts with `>` or a space and is
itself closer-free. -/
theorem hasCloserSub_swap_tail (d : Char) (hd : isLevel d = true)
    (χ : Char) (hχ : χ = '>' ∨ χ = ' ') :
    ∀ (u : List Char) (y tr : List Char),
      hasCloserSub d (u ++ '>' :: y) = false →
      hasCloserSub d (χ :: tr) = false →
      hasCloserSub d (u ++ χ :: tr) = false := by
  intro u
  induction u with
  | nil => intro y tr _ htl; exact htl
  | cons c u' ih =>
    intro y tr hno htl
    rw [List.cons_append] at hno ⊢
    rw [hasCloserSub_cons_false_iff] at hno ⊢
    obtain ⟨h1, h2⟩ := hno
    exact ⟨isCloserAt_seg_trans d c χ hd hχ u' y tr h1, ih y tr h2 htl⟩

/-- Closer-freeness of `content ++ closer ++ T` survives replacing the
closer's `h` by another `h` and the tail by any closer-free tail. -/
theorem hasCloserSub_closer_trans (d : Char) (hd : isLevel d = true)
    (h h' d0 : Char) (hh : isH h = true) (hh' : isH h' = true) (hd0 : isLevel d0 = true) :
    ∀ (content T T' : List Char),
      hasCloserSub d (content ++ '<' :: '/' :: h :: d0 :: '>' :: T) = false →
      hasCloserSub d T' = false →
      hasCloserSub d (content ++ '<' :: '/' :: h' :: d0 :: '>' :: T') = false := by
  intro content
  induction content with
  | nil =>
    intro T T' hno htl
    rw [List.nil_append] at hno ⊢
    have hdd : d0 ≠ d := by
      intro he
      subst he
      rw [hasCloserSub_cons_false_iff] at hno
      rw [show isCloserAt d0 ('<' :: '/' :: h :: d0 :: '>' :: T) = some (h, T) from by
        simp [isCloserAt, hh]] at hno
      exact absurd hno.1 (by simp)
    rw [hasCloserSub_cons_false_iff, hasCloserSub_cons_false_iff,
      hasCloserSub_cons_false_iff, hasCloserSub_cons_false_iff,
      hasCloserSub_cons_false_iff]
    refine ⟨?_, ?_, ?_, ?_, ?_, htl⟩
    · exact isCloserAt_not_level d '<' '/' h' d0 ('>' :: T') hdd
    · exact isCloserAt_not_lt d '/' _ (by decide)
    · exact isCloserAt_not_lt d h' _ (isH_spec h' hh').1
    · exact isCloserAt_not_lt d d0 _ (isLevel_spec d0 hd0).1
    · exact isCloserAt_not_lt d '>' _ (by decide)
  | cons c content' ih =>
    intro T T' hno htl
    rw [List.cons_append] at hno ⊢
    rw [hasCloserSub_cons_false_iff] at hno ⊢
    obtain ⟨h1, h2⟩ := hno
    refine ⟨?_, ih T T' h2 htl⟩
    have hpre : isCloserAt d (c :: content') = none :=
      isCloserAt_append_none d (c :: content') _ (by rw [List.cons_append]; exact h1)
    exact isCloserAt_cons_append d c hd content' _ hpre

/-- Characters produced by `natStr` are decimal digits, hence harmless. -/
theorem natStr_chars (n : Nat) : ∀ c ∈ natStr n,
    c ≠ '<' ∧ c ≠ '>' ∧ c ≠ '/' ∧ c ≠ ' ' := by
  induction n using Nat.strong_induction_on with
  | _ n ih =>
    rw [natStr]
    split
    · rename_i hn
      intro c hc
      simp only [List.mem_singleton] at hc
      subst hc
      interval_cases n <;> exact ⟨by decide, by decide, by decide, by decide⟩
    · rename_i hn
      intro c hc
      rw [List.mem_append] at hc
      rcases hc with hc | hc
      · exact ih (n / 10) (by omega) c hc
      · simp only [List.mem_singleton] at hc
        subst hc
        have hk : n % 10 < 10 := Nat.mod_lt _ (by omega)
        generalize n % 10 = k at hk
        interval_cases k <;> exact ⟨by decide, by decide, by decide, by decide⟩

/-- The inserted attribute text contains neither `<` nor `>`. -/
theorem markerChars_chars (n : Nat) (d : Char) (pt : List Char) (hd : isLevel d = true)
    (hpt : ∀ x ∈ pt, x ≠ '<' ∧ x ≠ '>' ∧ x ≠ '/') :
    ∀ c ∈ markerChars n d pt, c ≠ '<' ∧ c ≠ '>' := by
  intro c hc
  unfold markerChars at hc
  simp only [List.append_assoc, List.mem_append, List.mem_singleton, List.mem_cons] at hc
  rcases hc with hc | hc | hc | hc | hc | hc | hc
  · exact (by decide : ∀ x ∈ " data-botmon-section=\"".toList, x ≠ '<' ∧ x ≠ '>') c hc
  · exact ⟨(natStr_chars n c hc).1, (natStr_chars n c hc).2.1⟩
  · exact (by decide : ∀ x ∈ "\" data-botmon-level=\"".toList, x ≠ '<' ∧ x ≠ '>') c hc
  · rcases hc with hc | hc
    · subst hc
      exact ⟨(isLevel_spec _ hd).1, (isLevel_spec _ hd).2.1⟩
    · exact absurd hc (List.not_mem_nil c)
  · exact (by decide : ∀ x ∈ "\" data-botmon-page-type=\"".toList, x ≠ '<' ∧ x ≠ '>') c hc
  · exact ⟨(hpt c hc).1, (hpt c hc).2.1⟩
  · rcases hc with hc | hc
    · subst hc
      exact ⟨by decide, by decide⟩
    · exact absurd hc (List.not_mem_nil c)

/-- The inserted attribute text starts with a space. -/
theorem markerChars_head (n : Nat) (d : Char) (pt : List Char) :
    ∃ t, markerChars n d pt = ' ' :: t := by
  unfold markerChars
  rw [show (" data-botmon-section=\"").toList = ' ' :: ("data-botmon-section=\"").toList from
    by decide]
  refine ⟨"data-botmon-section=\"".toList ++ natStr n ++ "\" data-botmon-level=\"".toList
    ++ [d] ++ "\" data-botmon-page-type=\"".toList ++ pt ++ ['\"'], ?_⟩
  simp [List.cons_append, List.append_assoc]

/-- `includes` is positive on any list the pattern starts. -/
theorem hasInfix_of_prefix (pat l : List Char) (h : pat.isPrefixOf l = true) :
    hasInfix pat l = true := by
  cases l with
  | nil =>
    cases pat with
    | nil => rfl
    | cons a b => simp [List.isPrefixOf] at h
  | cons c t =>
    simp only [hasInfix]
    rw [h]
    rfl

/-- `includes` is monotone under prepending. -/
theorem hasInfix_append_right (pat s t : List Char) (h : hasInfix pat t = true) :
    hasInfix pat (s ++ t) = true := by
  induction s with
  | nil => exact h
  | cons c s' ih =>
    rw [List.cons_append]
    simp only [hasInfix]
    rw [ih]
    simp

/-- A pattern is a Boolean prefix of itself extended by anything. -/
theorem isPrefixOf_self_append (pat X : List Char) : pat.isPrefixOf (pat ++ X) = true := by
  induction pat with
  | nil => simp [List.isPrefixOf]
  | cons c p ih =>
    simp only [List.cons_append, List.isPrefixOf]
    simp [ih]

/-- The inserted attribute text always contains the duplicate-guard literal. -/
theorem hasMarker_markerChars (n : Nat) (d : Char) (pt : List Char) :
    hasMarker (markerChars n d pt) = true := by
  unfold hasMarker markerChars
  rw [show (" data-botmon-section=\"").toList
      = ' ' :: (markerLit ++ "=\"".toList) from by decide]
  simp only [List.cons_append, List.append_assoc]
  apply hasInfix_append_right markerLit [' ']
  exact hasInfix_of_prefix _ _ (isPrefixOf_self_append markerLit _)

/-- Appending the inserted attribute text always marks the attributes. -/
theorem hasMarker_append_marker (attrs : List Char) (n : Nat) (d : Char) (pt : List Char) :
    hasMarker (attrs ++ markerChars n d pt) = true :=
  hasInfix_append_right _ attrs _ (hasMarker_markerChars n d pt)

/-- Step equation on empty input. -/
theorem enrichAux_nil (pt : List Char) (n : Nat) : enrichAux pt n [] = [] := by
  simp [enrichAux]

/-- Output drill-down: a position that does not start a closer in the input
does not start one in the rewritten output either. -/
theorem isCloserAt_enrich_none (pt : List Char) (d : Char) (hd : isLevel d = true)
    (c : Char) (rest : List Char) (n : Nat)
    (h : isCloserAt d (c :: rest) = none) :
    isCloserAt d (c :: enrichAux pt n rest) = none := by
  by_cases hc : c = '<'
  case neg => exact isCloserAt_not_lt d c _ hc
  subst hc
  rcases rest with _ | ⟨r0, rest1⟩
  · rw [enrichAux_nil]; rfl
  by_cases h0 : r0 = '/'
  case neg =>
    obtain ⟨t, ht⟩ := enrichAux_head pt n r0 rest1
    rw [ht]
    exact isCloserAt_not_slash d '<' r0 t h0
  subst h0
  rw [enrichAux_none pt n '/' rest1 (tryHeading_head_ne '/' rest1 (by decide))]
  rcases rest1 with _ | ⟨r1, rest2⟩
  · rw [enrichAux_nil]; rfl
  by_cases h1 : isH r1 = true
  case neg =>
    obtain ⟨t, ht⟩ := enrichAux_head pt n r1 rest2
    rw [ht]
    exact isCloserAt_not_h d '<' '/' r1 t (Bool.eq_false_iff.mpr h1)
  rw [enrichAux_none pt n r1 rest2 (tryHeading_head_ne r1 rest2 (isH_spec r1 h1).1)]
  rcases rest2 with _ | ⟨r2, rest3⟩
  · rw [enrichAux_nil]; rfl
  by_cases h2 : r2 = d
  case neg =>
    obtain ⟨t, ht⟩ := enrichAux_head pt n r2 rest3
    rw [ht]
    exact isCloserAt_not_level d '<' '/' r1 r2 t h2
  subst h2
  rw [enrichAux_none pt n r2 rest3 (tryHeading_head_ne r2 rest3 (isLevel_spec r2 hd).1)]
  rcases rest3 with _ | ⟨r3, rest4⟩
  · rw [enrichAux_nil]; rfl
  by_cases h3 : r3 = '>'
  case neg =>
    obtain ⟨t, ht⟩ := enrichAux_head pt n r3 rest4
    rw [ht]
    exact isCloserAt_not_gt r2 '<' '/' r1 r2 r3 t h3
  subst h3
  exfalso
  rw [show isCloserAt r2 ('<' :: '/' :: r1 :: r2 :: '>' :: rest4) = some (r1, rest4) from by
    simp [isCloserAt, h1]] at h
  exact absurd h (by simp)

/-- The scan never introduces a closer: closer-free input yields
closer-free output. -/
theorem enrichAux_noCloser (pt : List Char)
    (hpt : ∀ x ∈ pt, x ≠ '<' ∧ x ≠ '>' ∧ x ≠ '/')
    (d : Char) (hd : isLevel d = true) :
    ∀ (N : Nat) (cs : List Char), cs.length ≤ N → ∀ (n : Nat),
      hasCloserSub d cs = false →
      hasCloserSub d (enrichAux pt n cs) = false := by
  intro N
  induction N with
  | zero =>
    intro cs hlen n hcs
    have hnil : cs = [] := List.eq_nil_of_length_eq_zero (Nat.le_zero.mp hlen)
    subst hnil
    rw [enrichAux_nil]
    rfl
  | succ N ihN =>
    intro cs hlen n hcs
    rcases cs with _ | ⟨c, rest⟩
    · rw [enrichAux_nil]; rfl
    have hlrest : rest.length ≤ N := by
      simp only [List.length_cons] at hlen
      omega
    cases htr : tryHeading (c :: rest) with
    | none =>
      rw [enrichAux_none pt n c rest htr]
      rw [hasCloserSub_cons_false_iff] at hcs ⊢
      exact ⟨isCloserAt_enrich_none pt d hd c rest n hcs.1, ihN rest hlrest n hcs.2⟩
    | some tup =>
      obtain ⟨h1, dl, attrs, content, h2, after⟩ := tup
      obtain ⟨hdec, hh1, hdl, hnogt, hh2, hncs⟩ := tryHeading_eq_some _ _ _ _ _ _ _ htr
      have hlafter : after.length ≤ N := by
        have := tryHeading_length _ _ _ _ _ _ _ htr
        simp only [List.length_cons] at this
        omega
      rw [hdec] at hcs
      rw [hasCloserSub_cons2 d h1 (isH_spec h1 hh1).1 (isH_spec h1 hh1).2.2.1] at hcs
      rw [hasCloserSub_cons_ne_lt d dl (isLevel_spec dl hdl).1] at hcs
      -- hcs : hasCloserSub d (attrs ++ '>' :: (content ++ closer ++ after)) = false
      have hY : hasCloserSub d (content ++ '<' :: '/' :: h2 :: dl :: '>' :: after) = false := by
        refine hasCloserSub_append_right d (attrs ++ ['>']) _ ?_
        simpa [List.append_assoc] using hcs
      have hafter : hasCloserSub d after = false := by
        refine hasCloserSub_append_right d (content ++ ['<', '/', h2, dl, '>']) _ ?_
        simpa [List.append_assoc] using hY
      have hE : hasCloserSub d (enrichAux pt (n + 1) after) = false :=
        ihN after hlafter (n + 1) hafter
      cases hmk : hasMarker attrs with
      | true =>
        rw [enrichAux_marked pt n c rest _ _ _ _ _ _ htr hmk]
        rw [hasCloserSub_cons2 d h1 (isH_spec h1 hh1).1 (isH_spec h1 hh1).2.2.1]
        rw [hasCloserSub_cons_ne_lt d dl (isLevel_spec dl hdl).1]
        refine hasCloserSub_swap_tail d hd '>' (Or.inl rfl) attrs _ _ hcs ?_
        rw [hasCloserSub_cons_ne_lt d '>' (by decide)]
        exact hasCloserSub_closer_trans d hd h2 h2 dl hh2 hh2 hdl content after _ hY hE
      | false =>
        rw [enrichAux_unmarked pt n c rest _ _ _ _ _ _ htr hmk]
        rw [hasCloserSub_cons2 d 'h' (by decide) (by decide)]
        rw [hasCloserSub_cons_ne_lt d dl (isLevel_spec dl hdl).1]
        -- goal: hasCloserSub d ((attrs ++ marker) ++ '>' :: Y2) = false
        obtain ⟨mt, hmt⟩ := markerChars_head (n + 1) dl pt
        have hY2 : hasCloserSub d (content
            ++ '<' :: '/' :: 'h' :: dl :: '>' :: enrichAux pt (n + 1) after) = false :=
          hasCloserSub_closer_trans d hd h2 'h' dl hh2 (by decide) hdl content after _ hY hE
        have htail : hasCloserSub d (markerChars (n + 1) dl pt ++ '>' :: (content
            ++ '<' :: '/' :: 'h' :: dl :: '>' :: enrichAux pt (n + 1) after)) = false := by
          refine hasCloserSub_no_lt d _ ?_ _ ?_
          · exact fun x hx => (markerChars_chars (n + 1) dl pt hdl hpt x hx).1
          · rw [hasCloserSub_cons_ne_lt d '>' (by decide)]
            exact hY2
        rw [List.append_assoc]
        refine hasCloserSub_swap_tail d hd ' ' (Or.inr rfl) attrs _ _ hcs ?_
        show hasCloserSub d (markerChars (n + 1) dl pt ++ ('>' :: (content
          ++ '<' :: '/' :: 'h' :: dl :: '>' :: enrichAux pt (n + 1) after))) = false
        exact htail

/-- The scan preserves the position of the first `>` up to rewriting, and
keeps the region after it closer-free. -/
theorem enrichAux_gt_part (pt : List Char)
    (hpt : ∀ x ∈ pt, x ≠ '<' ∧ x ≠ '>' ∧ x ≠ '/')
    (d : Char) (hd : isLevel d = true) :
    ∀ (N : Nat) (cs : List Char), cs.length ≤ N → ∀ (n : Nat) (a b : List Char),
      splitAtGtL cs = some (a, b) →
      hasCloserSub d b = false →
      ∃ a2 b2, splitAtGtL (enrichAux pt n cs) = some (a2, b2)
        ∧ hasCloserSub d b2 = false := by
  intro N
  induction N with
  | zero =>
    intro cs hlen n a b hsp hb
    have hnil : cs = [] := List.eq_nil_of_length_eq_zero (Nat.le_zero.mp hlen)
    subst hnil
    simp [splitAtGtL] at hsp
  | succ N ihN =>
    intro cs hlen n a b hsp hb
    rcases cs with _ | ⟨c, rest⟩
    · simp [splitAtGtL] at hsp
    have hlrest : rest.length ≤ N := by
      simp only [List.length_cons] at hlen
      omega
    cases htr : tryHeading (c :: rest) with
    | none =>
      rw [enrichAux_none pt n c rest htr]
      by_cases hc : c = '>'
      · subst hc
        simp only [splitAtGtL, if_pos rfl] at hsp
        injection hsp with hsp
        obtain ⟨rfl, rfl⟩ := Prod.mk.injEq .. ▸ hsp
        refine ⟨[], enrichAux pt n rest, ?_,
          enrichAux_noCloser pt hpt d hd N rest hlrest n hb⟩
        simp [splitAtGtL]
      · simp only [splitAtGtL, if_neg hc] at hsp
        cases hr : splitAtGtL rest with
        | none => rw [hr] at hsp; exact absurd hsp (by simp)
        | some p =>
          rw [hr] at hsp
          injection hsp with hsp
          obtain ⟨rfl, rfl⟩ := Prod.mk.injEq .. ▸ hsp
          obtain ⟨a2, b2, hsp2, hb2⟩ := ihN rest hlrest n p.1 p.2 (by rw [hr]) hb
          refine ⟨c :: a2, b2, ?_, hb2⟩
          simp only [splitAtGtL, if_neg hc]
          rw [hsp2]
          rfl
    | some tup =>
      obtain ⟨h1, dl, attrs, content, h2, after⟩ := tup
      obtain ⟨hdec, hh1, hdl, hnogt, hh2, hncs⟩ := tryHeading_eq_some _ _ _ _ _ _ _ htr
      have hlafter : after.length ≤ N := by
        have := tryHeading_length _ _ _ _ _ _ _ htr
        simp only [List.length_cons] at this
        omega
      have hnm : '>' ∉ ('<' :: h1 :: dl :: attrs) := by
        intro hmem
        simp only [List.mem_cons] at hmem
        rcases hmem with he | he | he | he
        · exact absurd he (by decide)
        · exact (isH_spec h1 hh1).2.1 he.symm
        · exact (isLevel_spec dl hdl).2.1 he.symm
        · exact hnogt he
      have hspY : splitAtGtL (c :: rest)
          = some ('<' :: h1 :: dl :: attrs,
              content ++ '<' :: '/' :: h2 :: dl :: '>' :: after) := by
        rw [hdec]
        have := splitAtGtL_append ('<' :: h1 :: dl :: attrs)
          (content ++ '<' :: '/' :: h2 :: dl :: '>' :: after) hnm
        simpa [List.cons_append] using this
      rw [hspY] at hsp
      injection hsp with hsp
      obtain ⟨rfl, rfl⟩ := Prod.mk.injEq .. ▸ hsp
      have hafter : hasCloserSub d after = false := by
        refine hasCloserSub_append_right d (content ++ ['<', '/', h2, dl, '>']) _ ?_
        simpa [List.append_assoc] using hb
      have hE : hasCloserSub d (enrichAux pt (n + 1) after) = false :=
        enrichAux_noCloser pt hpt d hd N after hlafter (n + 1) hafter
      cases hmk : hasMarker attrs with
      | true =>
        rw [enrichAux_marked pt n c rest _ _ _ _ _ _ htr hmk]
        refine ⟨'<' :: h1 :: dl :: attrs,
          content ++ '<' :: '/' :: h2 :: dl :: '>' :: enrichAux pt (n + 1) after, ?_, ?_⟩
        · have := splitAtGtL_append ('<' :: h1 :: dl :: attrs)
            (content ++ '<' :: '/' :: h2 :: dl :: '>' :: enrichAux pt (n + 1) after) hnm
          simpa [List.cons_append] using this
        · exact hasCloserSub_closer_trans d hd h2 h2 dl hh2 hh2 hdl content after _ hb hE
      | false =>
        rw [enrichAux_unmarked pt n c rest _ _ _ _ _ _ htr hmk]
        have hnm2 : '>' ∉ ('<' :: 'h' :: dl :: (attrs ++ markerChars (n + 1) dl pt)) := by
          intro hmem
          simp only [List.mem_cons, List.mem_append] at hmem
          rcases hmem with he | he | he | he | he
          · exact absurd he (by decide)
          · exact absurd he (by decide)
          · exact (isLevel_spec dl hdl).2.1 he.symm
          · exact hnogt he
          · exact (markerChars_chars (n + 1) dl pt hdl hpt '>' he).2 rfl
        refine ⟨'<' :: 'h' :: dl :: (attrs ++ markerChars (n + 1) dl pt),
          content ++ '<' :: '/' :: 'h' :: dl :: '>' :: enrichAux pt (n + 1) after, ?_, ?_⟩
        · have := splitAtGtL_append ('<' :: 'h' :: dl :: (attrs ++ markerChars (n + 1) dl pt))
            (content ++ '<' :: '/' :: 'h' :: dl :: '>' :: enrichAux pt (n + 1) after) hnm2
          simpa [List.cons_append] using this
        · exact hasCloserSub_closer_trans d hd h2 'h' dl hh2 (by decide) hdl content after _ hb hE

/-- A match attempt fails when the second character is not an `h`. -/
theorem tryHeading_not_h (x : Char) (hx : isH x = false) (t : List Char) :
    tryHeading ('<' :: x :: t) = none := by
  cases t with
  | nil => rfl
  | cons c2 l => simp [tryHeading, hx]

/-- A match attempt fails when the third character is not a level digit. -/
theorem tryHeading_not_level (x c2 : Char) (hc2 : isLevel c2 = false) (t : List Char) :
    tryHeading ('<' :: x :: c2 :: t) = none := by
  simp [tryHeading, hc2]

/-- A position where no heading matches still matches no heading after the
rest of the input is rewritten by the scan. -/
theorem tryHeading_enrich_none (pt : List Char)
    (hpt : ∀ x ∈ pt, x ≠ '<' ∧ x ≠ '>' ∧ x ≠ '/')
    (c : Char) (rest : List Char) (n : Nat)
    (h : tryHeading (c :: rest) = none) :
    tryHeading (c :: enrichAux pt n rest) = none := by
  by_cases hc : c = '<'
  case neg => exact tryHeading_head_ne _ _ hc
  subst hc
  rcases rest with _ | ⟨r0, rest1⟩
  · rw [enrichAux_nil]; rfl
  by_cases h0 : isH r0 = true
  case neg =>
    obtain ⟨t, ht⟩ := enrichAux_head pt n r0 rest1
    rw [ht]
    exact tryHeading_not_h r0 (Bool.eq_false_iff.mpr h0) t
  rw [enrichAux_none pt n r0 rest1 (tryHeading_head_ne r0 rest1 (isH_spec r0 h0).1)]
  rcases rest1 with _ | ⟨r1, rest2⟩
  · rw [enrichAux_nil]; rfl
  by_cases h1 : isLevel r1 = true
  case neg =>
    obtain ⟨t, ht⟩ := enrichAux_head pt n r1 rest2
    rw [ht]
    exact tryHeading_not_level r0 r1 (Bool.eq_false_iff.mpr h1) t
  rw [enrichAux_none pt n r1 rest2 (tryHeading_head_ne r1 rest2 (isLevel_spec r1 h1).1)]
  simp only [tryHeading] at h ⊢
  rw [if_pos ⟨trivial, h0, h1⟩] at h ⊢
  cases hg : splitAtGtL rest2 with
  | none =>
    rw [enrichAux_no_gt pt rest2 n ((splitAtGtL_none_iff rest2).mp hg)]
    rw [hg]
  | some p =>
    rw [hg] at h
    have h2 : (match splitAtCloser r1 p.2 with
      | none => none
      | some q => some (r0, r1, p.1, q.1, q.2.1, q.2.2)) = none := h
    cases hcl : splitAtCloser r1 p.2 with
    | some q => rw [hcl] at h2; exact absurd h2 (by simp)
    | none =>
      obtain ⟨a2, b2, hsp2, hb2⟩ := enrichAux_gt_part pt hpt r1 h1 rest2.length rest2
        le_rfl n p.1 p.2 hg ((splitAtCloser_none_iff r1 p.2).mp hcl)
      rw [hsp2]
      show (match splitAtCloser r1 b2 with
        | none => none
        | some q => some (r0, r1, a2, q.1, q.2.1, q.2.2)) = none
      rw [(splitAtCloser_none_iff r1 b2).mpr hb2]

/-- A second scan reproduces the first scan's output exactly. -/
theorem enrichAux_idem (pt : List Char)
    (hpt : ∀ x ∈ pt, x ≠ '<' ∧ x ≠ '>' ∧ x ≠ '/') :
    ∀ (N : Nat) (cs : List Char), cs.length ≤ N → ∀ (n m : Nat),
      enrichAux pt m (enrichAux pt n cs) = enrichAux pt n cs := by
  intro N
  induction N with
  | zero =>
    intro cs hlen n m
    have hnil : cs = [] := List.eq_nil_of_length_eq_zero (Nat.le_zero.mp hlen)
    subst hnil
    rw [enrichAux_nil, enrichAux_nil]
  | succ N ihN =>
    intro cs hlen n m
    rcases cs with _ | ⟨c, rest⟩
    · rw [enrichAux_nil, enrichAux_nil]
    have hlrest : rest.length ≤ N := by
      simp only [List.length_cons] at hlen
      omega
    cases htr : tryHeading (c :: rest) with
    | none =>
      rw [enrichAux_none pt n c rest htr]
      rw [enrichAux_none pt m c _ (tryHeading_enrich_none pt hpt c rest n htr)]
      rw [ihN rest hlrest n m]
    | some tup =>
      obtain ⟨h1, dl, attrs, content, h2, after⟩ := tup
      obtain ⟨hdec, hh1, hdl, hnogt, hh2, hncs⟩ := tryHeading_eq_some _ _ _ _ _ _ _ htr
      have hlafter : after.length ≤ N := by
        have := tryHeading_length _ _ _ _ _ _ _ htr
        simp only [List.length_cons] at this
        omega
      cases hmk : hasMarker attrs with
      | true =>
        rw [enrichAux_marked pt n c rest _ _ _ _ _ _ htr hmk]
        have htr2 := tryHeading_build h1 dl attrs content h2 (enrichAux pt (n + 1) after)
          hh1 hdl hnogt hh2 hncs
        rw [enrichAux_marked pt m '<' _ _ _ _ _ _ _ htr2 hmk]
        rw [ihN after hlafter (n + 1) (m + 1)]
      | false =>
        rw [enrichAux_unmarked pt n c rest _ _ _ _ _ _ htr hmk]
        have hnogt2 : '>' ∉ attrs ++ markerChars (n + 1) dl pt := by
          intro hmem
          rcases List.mem_append.mp hmem with he | he
          · exact hnogt he
          · exact (markerChars_chars (n + 1) dl pt hdl hpt '>' he).2 rfl
        have htr2 := tryHeading_build 'h' dl (attrs ++ markerChars (n + 1) dl pt) content 'h'
          (enrichAux pt (n + 1) after) (by decide) hdl hnogt2 (by decide) hncs
        rw [enrichAux_marked pt m '<' _ _ _ _ _ _ _ htr2
          (hasMarker_append_marker attrs (n + 1) dl pt)]
        rw [ihN after hlafter (n + 1) (m + 1)]

/-- No page-type string contains a structural HTML character. -/
theorem pageTypeStr_chars (pageType : PageType) :
    ∀ x ∈ (pageTypeStr pageType).toList, x ≠ '<' ∧ x ≠ '>' ∧ x ≠ '/' := by
  cases pageType <;> decide

/-- C7: for every HTML string and page type, `enrichHeadings` is idempotent:
a second application reproduces the first application's output byte for
byte.  In particular every heading that already carries the
`data-botmon-section` marker after the first pass (including those the
first pass just rewrote) is emitted verbatim by the second pass, and the
second pass matches exactly the headings the first pass matched. -/
theorem enrichHeadings_idempotent (html : String) (pageType : PageType) :
    enrichHeadings (enrichHeadings html pageType) pageType = enrichHeadings html pageType := by
  show String.mk (enrichAux (pageTypeStr pageType).toList 0
      (String.mk (enrichAux (pageTypeStr pageType).toList 0 html.toList)).toList)
    = String.mk (enrichAux (pageTypeStr pageType).toList 0 html.toList)
  rw [show (String.mk (enrichAux (pageTypeStr pageType).toList 0 html.toList)).toList
    = enrichAux (pageTypeStr pageType).toList 0 html.toList from rfl]
  rw [enrichAux_idem (pageTypeStr pageType).toList (pageTypeStr_chars pageType)
    html.toList.length html.toList le_rfl 0 0]

end Botmon